import Mathlib

set_option maxRecDepth 8000

/-!
Shallow embedding of the cleaning-to-parquet pipeline
(`cleaning_to_parquet_agent.py`): the amount parser `parse_amount`, the
price reconciler `apply_notebook_cleaning_rules`, the deduplicator
`deduplicate_df`, and the outlier section of `basic_analysis`.

Modelling conventions:
- Python floats are modelled exactly: finite values are rationals (`ℚ`),
  plus distinguished values for the two infinities and the not-a-number
  value.  A column's missing value (`None` / `NaN` / `pd.NA`) is modelled
  by the not-a-number value for numeric columns and by `Option.none` for
  string columns; both behave identically in every comparison, `notna`
  test and `drop_duplicates` key that the pipeline performs.
- `astype(str)` stringifies a missing value to the fixed sentinel "nan"
  (what pandas produces for a float `NaN` cell).
- Character predicates (digits, whitespace) are modelled over the ASCII
  range actually exercised by the data.
-/

/-- ASCII whitespace stripped by Python `str.strip()`. -/
def pyIsSpace (c : Char) : Bool :=
  c = ' ' || c = '\t' || c = '\n' || c = '\r' || c = '\x0b' || c = '\x0c'

/-- Strip leading and trailing whitespace from a character list. -/
def stripList (cs : List Char) : List Char :=
  ((cs.dropWhile pyIsSpace).reverse.dropWhile pyIsSpace).reverse

/-- Python `str.strip()`. -/
def pyStrip (s : String) : String := String.mk (stripList s.toList)

/-- `listStarts pat l` decides whether `pat` is an initial run of `l`. -/
def listStarts : List Char → List Char → Bool
  | [], _ => true
  | _ :: _, [] => false
  | p :: ps, c :: cs => decide (p = c) && listStarts ps cs

/-- `hasSub pat l` decides whether `pat` occurs contiguously inside `l`
(Python `pat in s`, pandas `str.contains` with a literal pattern). -/
def hasSub (pat : List Char) : List Char → Bool
  | [] => pat.isEmpty
  | l@(_ :: xs) => listStarts pat l || hasSub pat xs

/-- Substring containment on strings. -/
def containsTok (s pat : String) : Bool := hasSub pat.toList s.toList

/-- Characters before the first occurrence of `pat`; the whole list when
`pat` does not occur.  Models `s.split(pat)[0]`. -/
def takeUntilPat (pat : List Char) : List Char → List Char
  | [] => []
  | x :: xs => if listStarts pat (x :: xs) then [] else x :: takeUntilPat pat xs

/-- First " · "-separated segment of a price string
(`pr.str.split(" · ").str[0]`). -/
def firstSegment (s : String) : String :=
  String.mk (takeUntilPat (" · ".toList) s.toList)

/-- Fuel-driven replacement of every non-overlapping occurrence of `pat`
by `rep`, left to right (Python `str.replace`).  The fuel is the input
length, which bounds the number of consumed characters. -/
def replAux (pat rep : List Char) : Nat → List Char → List Char
  | _, [] => []
  | 0, l => l
  | n + 1, x :: xs =>
    if listStarts pat (x :: xs) then
      rep ++ replAux pat rep n (List.drop (pat.length - 1) xs)
    else x :: replAux pat rep n xs

/-- Python `s.replace(pat, rep)` (all occurrences, literal pattern). -/
def replaceTok (s pat rep : String) : String :=
  String.mk (replAux pat.toList rep.toList s.toList.length s.toList)

/-- Lexicographic order on code-point lists (Python string comparison). -/
def cdLe : List Nat → List Nat → Bool
  | [], _ => true
  | _ :: _, [] => false
  | a :: as, b :: bs => if a = b then cdLe as bs else decide (a < b)

/-- Python `<=` on strings (code-point lexicographic). -/
def strLe (a b : String) : Bool :=
  cdLe (a.toList.map Char.toNat) (b.toList.map Char.toNat)

/-- Order on an optional sort key with missing values placed last
(`sort_values(..., na_position="last")`). -/
def optStrLe : Option String → Option String → Bool
  | some a, some b => strLe a b
  | some _, none => true
  | none, some _ => false
  | none, none => true

/-- Rational helper operations written via `Rat.divInt` so that concrete
computations reduce; each is proved equal to the corresponding field
operation below. -/
def qAdd (a b : ℚ) : ℚ := Rat.divInt (a.num * b.den + b.num * a.den) ((a.den : Int) * b.den)

/-- Subtraction via `Rat.divInt`. -/
def qSub (a b : ℚ) : ℚ := Rat.divInt (a.num * b.den - b.num * a.den) ((a.den : Int) * b.den)

/-- Multiplication via `Rat.divInt`. -/
def qMul (a b : ℚ) : ℚ := Rat.divInt (a.num * b.num) ((a.den : Int) * b.den)

/-- Division via `Rat.divInt` (zero denominator yields zero, as in `ℚ`). -/
def qDiv (a b : ℚ) : ℚ := Rat.divInt (a.num * b.den) ((a.den : Int) * b.num)

/-- The rational `10 ^ k`. -/
def pow10 (k : Nat) : ℚ := ((10 ^ k : Nat) : ℚ)

/-- A Python float value: finite (exact rational), signed infinity, or
not-a-number.  `nan` also stands for a missing numeric cell. -/
inductive PF where
  | fin (q : ℚ)
  | pinf
  | ninf
  | nan
deriving DecidableEq, Repr

/-- `pandas.notna` on a numeric cell. -/
def pfNotNA : PF → Bool
  | PF.nan => false
  | _ => true

/-- Scan a maximal digit group, allowing single underscores between
digits (Python numeric literals accepted by `float`).  Returns the value,
the number of digits, and the unconsumed rest. -/
def goDigits (acc k : Nat) : List Char → Nat × Nat × List Char
  | '_' :: c :: rest =>
    if c.isDigit then goDigits (acc * 10 + (c.toNat - 48)) (k + 1) rest
    else (acc, k, '_' :: c :: rest)
  | c :: rest =>
    if c.isDigit then goDigits (acc * 10 + (c.toNat - 48)) (k + 1) rest
    else (acc, k, c :: rest)
  | [] => (acc, k, [])

/-- Parse a nonempty digit group; fails unless the first character is a
digit. -/
def parseUDigits : List Char → Option (Nat × Nat × List Char)
  | c :: rest => if c.isDigit then some (goDigits (c.toNat - 48) 1 rest) else none
  | [] => none

/-- Parse the mantissa part of a float literal: `digits`, `digits.`,
`digits.digits`, or `.digits`. -/
def parseMantissa (cs : List Char) : Option (ℚ × List Char) :=
  match parseUDigits cs with
  | some (ip, _, rest) =>
    match rest with
    | '.' :: rest2 =>
      match parseUDigits rest2 with
      | some (fp, k, rest3) => some (qAdd (ip : ℚ) (qDiv (fp : ℚ) (pow10 k)), rest3)
      | none => some ((ip : ℚ), rest2)
    | _ => some ((ip : ℚ), rest)
  | none =>
    match cs with
    | '.' :: rest2 =>
      match parseUDigits rest2 with
      | some (fp, k, rest3) => some (qDiv (fp : ℚ) (pow10 k), rest3)
      | none => none
    | _ => none

/-- Apply an exponent's digit group to the mantissa. -/
def parseExpNum (m : ℚ) (pos : Bool) (r : List Char) : Option (ℚ × List Char) :=
  match parseUDigits r with
  | some (e, _, rest) =>
    some (if pos then qMul m (pow10 e) else qDiv m (pow10 e), rest)
  | none => none

/-- Parse an exponent's optional sign and digits. -/
def parseExpDigits (m : ℚ) (rest2 : List Char) : Option (ℚ × List Char) :=
  match rest2 with
  | '+' :: r => parseExpNum m true r
  | '-' :: r => parseExpNum m false r
  | r => parseExpNum m true r

/-- Parse an optional `e`/`E` exponent after the mantissa. -/
def parseExpPart (m : ℚ) (rest : List Char) : Option (ℚ × List Char) :=
  match rest with
  | 'e' :: rest2 => parseExpDigits m rest2
  | 'E' :: rest2 => parseExpDigits m rest2
  | _ => some (m, rest)

/-- Parse a full unsigned float literal body. -/
def parseNumber (cs : List Char) : Option (ℚ × List Char) :=
  match parseMantissa cs with
  | none => none
  | some (m, rest) => parseExpPart m rest

/-- Lower-case a character list. -/
def lowerList (cs : List Char) : List Char := cs.map Char.toLower

/-- Python `float(s)` on a string: strips whitespace, accepts an optional
sign, the words inf/infinity/nan (case-insensitive), or a decimal literal
with optional fraction and exponent; anything else fails (`ValueError`). -/
def pyFloat (s : String) : Option PF :=
  match stripList s.toList with
  | [] => none
  | cs =>
    let signBody : Bool × List Char :=
      match cs with
      | '+' :: r => (true, r)
      | '-' :: r => (false, r)
      | r => (true, r)
    let pos := signBody.1
    let body := signBody.2
    let lb := lowerList body
    if lb = "inf".toList ∨ lb = "infinity".toList then
      some (if pos then PF.pinf else PF.ninf)
    else if lb = "nan".toList then some PF.nan
    else
      match parseNumber body with
      | some (q, []) => some (PF.fin (if pos then q else -q))
      | _ => none

/-- Positions of the commas in a character list. -/
def commaIdxList (cs : List Char) : List Nat :=
  (cs.enum.filter (fun p => decide (p.2 = ','))).map (fun p => p.1)

/-- Drop the first comma of a character list, keeping everything else. -/
def removeFirstComma : List Char → List Char
  | [] => []
  | x :: xs => if x = ',' then xs else x :: removeFirstComma xs

/-- `parse_amount` (notebook-aligned rules): no comma means plain float
parsing; more than two digits before the first comma truncates there and
keeps only digit/sign/dot characters; a single comma is removed as a
thousands separator; with two or more commas the string is cut at the
second comma and the first comma removed.  Every failure yields `none`. -/
def parse_amount (value : Option String) : Option PF :=
  match value with
  | none => none
  | some v =>
    let s := pyStrip v
    if s = "" then none
    else
      let cs := s.toList
      match commaIdxList cs with
      | [] => pyFloat s
      | first :: restIdxs =>
        if 2 < ((cs.take first).filter Char.isDigit).length then
          let head := String.mk ((cs.take first).filter
            (fun c => c.isDigit || decide (c = '+') || decide (c = '-') || decide (c = '.')))
          if head = "" ∨ head = "+" ∨ head = "-" then none else pyFloat head
        else
          match restIdxs with
          | [] => pyFloat (String.mk (cs.filter (fun c => decide (c ≠ ','))))
          | second :: _ =>
            pyFloat (String.mk (removeFirstComma (cs.take second)))

/-- A Python list-or-other cell for the `image_urls` column: a genuine
Python list of strings, a tuple of strings (produced by canonicalization),
or a missing / non-list value. -/
inductive PyObj where
  | pylist (xs : List String)
  | pytuple (xs : List String)
  | na
deriving DecidableEq, Repr

/-- A normalized listing row restricted to the fields the cleaning,
deduplication and profiling steps read or write.  Numeric columns hold a
Python float (`PF.nan` = missing); string columns hold `Option String`
(`none` = missing); `global_index` stands for the remaining columns that
none of the steps reads, so that two rows can differ while having every
key field empty. -/
structure Row where
  global_index : PF := PF.nan
  scraped_at : Option String := none
  title : Option String := none
  url : Option String := none
  location : Option String := none
  property_type : Option String := none
  price_raw : Option String := none
  price_numeric : PF := PF.nan
  currency : Option String := none
  price_per_sqm : PF := PF.nan
  area_numeric : PF := PF.nan
  bedrooms : PF := PF.nan
  bathrooms : PF := PF.nan
  full_text : Option String := none
  image_urls : PyObj := PyObj.na
deriving DecidableEq, Repr

/-- `astype(str)` on an optional string cell: a missing value stringifies
to the pandas sentinel. -/
def pyStr : Option String → String
  | some s => s
  | none => "nan"

/-- IEEE comparison `c < x` for a rational constant `c` (pandas `> c`
filter mask): false on not-a-number. -/
def pfGtQ (x : PF) (c : ℚ) : Bool :=
  match x with
  | PF.fin q => decide (c < q)
  | PF.pinf => true
  | PF.ninf => false
  | PF.nan => false

/-- IEEE comparison `x <= c` for a rational constant `c`: false on
not-a-number. -/
def pfLeQ (x : PF) (c : ℚ) : Bool :=
  match x with
  | PF.fin q => decide (q ≤ c)
  | PF.pinf => false
  | PF.ninf => true
  | PF.nan => false

/-- Multiplication of a float cell by a positive rational constant. -/
def pfMulQ (x : PF) (c : ℚ) : PF :=
  match x with
  | PF.fin q => PF.fin (qMul q c)
  | PF.pinf => PF.pinf
  | PF.ninf => PF.ninf
  | PF.nan => PF.nan

/-- IEEE division of float cells, for the `price / area` recomputation;
only applied under the guard `area > 0`, so the zero-denominator case is
unreachable. -/
def pfDiv (x y : PF) : PF :=
  match x, y with
  | PF.fin p, PF.fin a => PF.fin (qDiv p a)
  | PF.fin _, PF.pinf => PF.fin 0
  | PF.fin _, PF.ninf => PF.fin 0
  | PF.pinf, PF.fin _ => PF.pinf
  | PF.ninf, PF.fin _ => PF.ninf
  | _, _ => PF.nan

/-- `EXCHANGE_RATE = 3.8` (reference-currency units per USD). -/
def EXCHANGE_RATE : ℚ := Rat.divInt 19 5

/-- `MIN_PRICE = 10` (exclusive lower bound of the plausibility filter). -/
def MIN_PRICE : ℚ := 10

/-- `MAX_PRICE = 90000` (inclusive upper bound of the plausibility
filter). -/
def MAX_PRICE : ℚ := 90000

/-- The cleaned first price segment
(`pr.str.split(" · ").str[0]` with `"S/"` and `"USD"` removed, stripped). -/
def cleanedSegment (price_raw : Option String) : String :=
  pyStrip (replaceTok (replaceTok (firstSegment (pyStr price_raw)) "S/" "") "USD" "")

/-- Per-row body of `apply_notebook_cleaning_rules` before the
plausibility filter: infer the currency from `price_raw`, recompute
`price_numeric` from the cleaned first segment via `parse_amount`,
convert USD amounts at `EXCHANGE_RATE`, and force the currency to "PEN". -/
def reconRow (r : Row) : Row :=
  let pr := pyStr r.price_raw
  let pen := containsTok pr "S/"
  let usd := containsTok pr "USD" && !pen
  let cur1 : Option String :=
    if pen then some "PEN" else if usd then some "USD" else r.currency
  let p0 : PF := (parse_amount (some (cleanedSegment r.price_raw))).getD PF.nan
  let p1 : PF :=
    if cur1 = some "USD" && pfNotNA p0 then pfMulQ p0 EXCHANGE_RATE else p0
  { r with currency := some "PEN", price_numeric := p1 }

/-- The plausibility filter mask `MIN_PRICE < price_numeric <= MAX_PRICE`. -/
def priceInRange (r : Row) : Bool :=
  pfGtQ r.price_numeric MIN_PRICE && pfLeQ r.price_numeric MAX_PRICE

/-- Per-row `price_per_sqm` recomputation: rows with `area_numeric > 0`
get `price_numeric / area_numeric`; other rows are left untouched. -/
def ppsRow (r : Row) : Row :=
  if pfGtQ r.area_numeric 0 then
    { r with price_per_sqm := pfDiv r.price_numeric r.area_numeric }
  else r

/-- `apply_notebook_cleaning_rules`: currency inference and price
recomputation per row, then the hard plausibility filter, then the
`price_per_sqm` recomputation on the surviving rows. -/
def apply_notebook_cleaning_rules (df : List Row) : List Row :=
  ((df.map reconRow).filter priceInRange).map ppsRow

/-- Accumulator version of keep-first key deduplication: `seen` holds the
keys already emitted. -/
def dedupByKeyAux {α κ : Type} [DecidableEq κ] (k : α → κ) (seen : List κ) :
    List α → List α
  | [] => []
  | a :: rest =>
    if k a ∈ seen then dedupByKeyAux k seen rest
    else a :: dedupByKeyAux k (k a :: seen) rest

/-- `drop_duplicates(subset=key, keep="first")`: keep the first row of
each key-equivalence class, in order. -/
def dedupByKey {α κ : Type} [DecidableEq κ] (k : α → κ) (l : List α) : List α :=
  dedupByKeyAux k [] l

/-- Sorted duplicate-free representation of a string list
(`tuple(sorted(set(x)))`). -/
def canonList (xs : List String) : List String :=
  List.insertionSort (fun a b => strLe a b = true) (dedupByKey id xs)

/-- Canonicalize a list-valued cell: a Python list becomes the sorted
duplicate-free tuple; tuples and non-list values are unchanged
(`tuple(sorted(set(x))) if isinstance(x, list) else x`). -/
def canonObj : PyObj → PyObj
  | PyObj.pylist xs => PyObj.pytuple (canonList xs)
  | o => o

/-- Canonicalize the `image_urls` cell of a row. -/
def canonRow (r : Row) : Row :=
  { r with image_urls := canonObj r.image_urls }

/-- Row order used by `sort_values(by=["scraped_at"], na_position="last")`. -/
def rowLe (a b : Row) : Prop := optStrLe a.scraped_at b.scraped_at = true

instance : DecidableRel rowLe := fun a b => by
  unfold rowLe; infer_instance

/-- The "has a real URL" mask: URL present, longer than 3 characters and
starting with "http". -/
def hasRealUrl (r : Row) : Bool :=
  match r.url with
  | none => false
  | some s => decide (3 < s.length) && listStarts ("http".toList) s.toList

/-- Collapse every maximal whitespace run to a single space
(`str.replace("\\s+", " ", regex=True)`). -/
def collapseWs : List Char → List Char
  | [] => []
  | c :: cs =>
    if pyIsSpace c then
      match cs with
      | [] => [' ']
      | d :: _ => if pyIsSpace d then collapseWs cs else ' ' :: collapseWs cs
    else c :: collapseWs cs

/-- Normalized full text used as the no-URL dedup key: `astype(str)`,
collapse whitespace runs to single spaces, strip. -/
def ftNorm (r : Row) : String :=
  String.mk (stripList (collapseWs (pyStr r.full_text).toList))

/-- The tuple of columns forming the composite fallback identity key. -/
structure CompKey where
  title : Option String
  location : Option String
  property_type : Option String
  price_numeric : PF
  area_numeric : PF
  bedrooms : PF
  bathrooms : PF
deriving DecidableEq, Repr

/-- The composite fallback identity key (ignores `image_urls`). -/
def compKey (r : Row) : CompKey :=
  ⟨r.title, r.location, r.property_type, r.price_numeric, r.area_numeric,
    r.bedrooms, r.bathrooms⟩

/-- `deduplicate_df`: canonicalize list cells, sort by scrape timestamp
(missing last), split by URL usability, keep the first row per URL among
usable-URL rows, and among the rest keep the first row per normalized
full text and then per composite key; finally concatenate the two parts. -/
def deduplicate_df (df : List Row) : List Row :=
  let dfc := df.map canonRow
  let sorted := List.insertionSort rowLe dfc
  let df_with_url := sorted.filter hasRealUrl
  let df_no_url := sorted.filter (fun r => !hasRealUrl r)
  let wu := dedupByKey Row.url df_with_url
  let nu := dedupByKey compKey (dedupByKey ftNorm df_no_url)
  wu ++ nu

/-- `df[c].dropna()`: the non-null cells of a numeric column.  Pandas
keeps the two infinities (they are not null); only `NaN` cells drop. -/
def dropna (xs : List PF) : List PF := xs.filter pfNotNA

/-- Ascending IEEE sort order on float cells: `-inf` below every finite
value, `+inf` above; the not-a-number value is placed last (it cannot
occur in a column produced by `dropna`). -/
def pfSortLe : PF → PF → Bool
  | PF.ninf, _ => true
  | PF.fin _, PF.ninf => false
  | PF.fin a, PF.fin b => decide (a ≤ b)
  | PF.fin _, _ => true
  | PF.pinf, PF.pinf => true
  | PF.pinf, PF.nan => true
  | PF.pinf, _ => false
  | PF.nan, PF.nan => true
  | PF.nan, _ => false

/-- The sort order as a decidable relation. -/
def pfLe (a b : PF) : Prop := pfSortLe a b = true

instance : DecidableRel pfLe := fun a b => by
  unfold pfLe; infer_instance

/-- IEEE addition on float cells. -/
def pfAdd : PF → PF → PF
  | PF.fin a, PF.fin b => PF.fin (qAdd a b)
  | PF.fin _, y => y
  | PF.pinf, PF.fin _ => PF.pinf
  | PF.pinf, PF.pinf => PF.pinf
  | PF.pinf, _ => PF.nan
  | PF.ninf, PF.fin _ => PF.ninf
  | PF.ninf, PF.ninf => PF.ninf
  | PF.ninf, _ => PF.nan
  | PF.nan, _ => PF.nan

/-- IEEE subtraction on float cells. -/
def pfSub : PF → PF → PF
  | PF.fin a, PF.fin b => PF.fin (qSub a b)
  | PF.fin _, PF.pinf => PF.ninf
  | PF.fin _, PF.ninf => PF.pinf
  | PF.fin _, PF.nan => PF.nan
  | PF.pinf, PF.fin _ => PF.pinf
  | PF.pinf, PF.ninf => PF.pinf
  | PF.pinf, _ => PF.nan
  | PF.ninf, PF.fin _ => PF.ninf
  | PF.ninf, PF.pinf => PF.ninf
  | PF.ninf, _ => PF.nan
  | PF.nan, _ => PF.nan

/-- IEEE multiplication of a float cell by a finite scalar; a zero
scalar times an infinity is not-a-number. -/
def pfScale (c : ℚ) : PF → PF
  | PF.fin q => PF.fin (qMul q c)
  | PF.pinf => if 0 < c then PF.pinf else if c < 0 then PF.ninf else PF.nan
  | PF.ninf => if 0 < c then PF.ninf else if c < 0 then PF.pinf else PF.nan
  | PF.nan => PF.nan

/-- IEEE strict less-than on float cells (false whenever either side is
not-a-number). -/
def pfLtB : PF → PF → Bool
  | PF.fin a, PF.fin b => decide (a < b)
  | PF.fin _, PF.pinf => true
  | PF.ninf, PF.fin _ => true
  | PF.ninf, PF.pinf => true
  | _, _ => false

/-- The fractional index `p * (n - 1)` used by linear-interpolation
quantiles over a column of `n` observations. -/
def qpos (p : ℚ) (n : Nat) : ℚ := qMul p (qSub (n : ℚ) 1)

/-- The lower integer index neighbouring the fractional quantile
position. -/
def qidx (p : ℚ) (n : Nat) : Nat := (Rat.floor (qpos p n)).toNat

/-- The column sorted in ascending IEEE order. -/
def pfsorted (obs : List PF) : List PF := List.insertionSort pfLe obs

/-- Numpy's interpolation between neighbouring order statistics
(`_lerp`, used by pandas `Series.quantile`): a fractional part below one
half computes `a + (b - a) * t`, otherwise `b - (b - a) * (1 - t)`.  In
IEEE arithmetic the two differ on infinite inputs, and `0 * inf` is
not-a-number, which this model reproduces. -/
def lerpPF (a b : PF) (t : ℚ) : PF :=
  if Rat.divInt 1 2 ≤ t then pfSub b (pfScale (qSub 1 t) (pfSub b a))
  else pfAdd a (pfScale t (pfSub b a))

/-- Linear-interpolation quantile (pandas `Series.quantile`, default
interpolation): sort in IEEE order, take the order statistics
neighbouring position `p * (n - 1)` (upper index clamped to `n - 1`),
and interpolate with `lerpPF`. -/
def quantilePF (p : ℚ) (obs : List PF) : PF :=
  lerpPF ((pfsorted obs).getD (qidx p obs.length) PF.nan)
    ((pfsorted obs).getD (qidx p obs.length + 1)
      ((pfsorted obs).getD (qidx p obs.length) PF.nan))
    (qSub (qpos p obs.length) ((qidx p obs.length : ℚ)))

/-- One entry of the `outliers_iqr` section of the profile report. -/
structure OutEntry where
  lower_bound : PF
  upper_bound : PF
  num_below : Nat
  num_above : Nat
deriving DecidableEq, Repr

/-- The Tukey lower bound `Q1 - 1.5 * IQR` in IEEE arithmetic. -/
def tukeyLower (obs : List PF) : PF :=
  pfSub (quantilePF (Rat.divInt 1 4) obs)
    (pfScale (Rat.divInt 3 2)
      (pfSub (quantilePF (Rat.divInt 3 4) obs) (quantilePF (Rat.divInt 1 4) obs)))

/-- The Tukey upper bound `Q3 + 1.5 * IQR` in IEEE arithmetic. -/
def tukeyUpper (obs : List PF) : PF :=
  pfAdd (quantilePF (Rat.divInt 3 4) obs)
    (pfScale (Rat.divInt 3 2)
      (pfSub (quantilePF (Rat.divInt 3 4) obs) (quantilePF (Rat.divInt 1 4) obs)))

/-- Tukey-rule outlier entry for one numeric column: present only with
at least 10 non-null observations (infinities count, as in pandas
`dropna`); bounds at `Q1 - 1.5*IQR` and `Q3 + 1.5*IQR`, counting
observations strictly outside by IEEE comparison. -/
def outlierEntry (obs : List PF) : Option OutEntry :=
  if 10 ≤ obs.length then
    some ⟨tukeyLower obs, tukeyUpper obs,
      obs.countP (fun x => pfLtB x (tukeyLower obs)),
      obs.countP (fun x => pfLtB (tukeyUpper obs) x)⟩
  else none

/-- The observations of the two columns profiled for outliers
(`df[c].dropna()`: non-null cells, infinities included). -/
def colObs (df : List Row) (c : String) : List PF :=
  if c = "price_numeric" then dropna (df.map Row.price_numeric)
  else if c = "price_per_sqm" then dropna (df.map Row.price_per_sqm)
  else []

/-- The `outliers_iqr` section of `basic_analysis`: entries for
`price_numeric` and `price_per_sqm` only, each present only when its
column has at least 10 non-null observations. -/
def basic_analysis_outliers (df : List Row) : List (String × OutEntry) :=
  (["price_numeric", "price_per_sqm"]).filterMap
    (fun c => (outlierEntry (colObs df c)).map (fun e => (c, e)))

/-- The formula claimed for the reconciled price: `parse_amount` of the
first " · "-separated segment of `price_raw` with the "S/" and "USD"
tokens removed and trimmed, multiplied by the exchange rate when the
row's currency (as inferred from `price_raw`, falling back to the input
currency field) is USD.  Stated from the claim's words, to be compared
with the `reconRow` computation. -/
def specPrice (price_raw currency : Option String) : PF :=
  let base := (parse_amount (some (cleanedSegment price_raw))).getD PF.nan
  let pr := pyStr price_raw
  let cur : Option String :=
    if containsTok pr "S/" then some "PEN"
    else if containsTok pr "USD" then some "USD"
    else currency
  if cur = some "USD" && pfNotNA base then pfMulQ base EXCHANGE_RATE else base

theorem qAdd_eq (a b : ℚ) : qAdd a b = a + b := by
  have ha : ((a.den : ℚ)) ≠ 0 := Nat.cast_ne_zero.mpr a.den_nz
  have hb : ((b.den : ℚ)) ≠ 0 := Nat.cast_ne_zero.mpr b.den_nz
  unfold qAdd
  rw [Rat.divInt_eq_div]
  push_cast
  conv_rhs => rw [← Rat.num_div_den a, ← Rat.num_div_den b]
  field_simp

theorem qSub_eq (a b : ℚ) : qSub a b = a - b := by
  have ha : ((a.den : ℚ)) ≠ 0 := Nat.cast_ne_zero.mpr a.den_nz
  have hb : ((b.den : ℚ)) ≠ 0 := Nat.cast_ne_zero.mpr b.den_nz
  unfold qSub
  rw [Rat.divInt_eq_div]
  push_cast
  conv_rhs => rw [← Rat.num_div_den a, ← Rat.num_div_den b]
  field_simp
  ring

theorem qMul_eq (a b : ℚ) : qMul a b = a * b := by
  have ha : ((a.den : ℚ)) ≠ 0 := Nat.cast_ne_zero.mpr a.den_nz
  have hb : ((b.den : ℚ)) ≠ 0 := Nat.cast_ne_zero.mpr b.den_nz
  unfold qMul
  rw [Rat.divInt_eq_div]
  push_cast
  conv_rhs => rw [← Rat.num_div_den a, ← Rat.num_div_den b]
  field_simp

theorem qDiv_eq (a b : ℚ) : qDiv a b = a / b := by
  rcases eq_or_ne b 0 with hb0 | hb0
  · subst hb0
    unfold qDiv
    simp
  · have ha : ((a.den : ℚ)) ≠ 0 := Nat.cast_ne_zero.mpr a.den_nz
    have hb : ((b.den : ℚ)) ≠ 0 := Nat.cast_ne_zero.mpr b.den_nz
    have hbn : ((b.num : ℚ)) ≠ 0 := by
      exact_mod_cast Rat.num_ne_zero.mpr hb0
    unfold qDiv
    rw [Rat.divInt_eq_div]
    push_cast
    conv_rhs => rw [← Rat.num_div_den a, ← Rat.num_div_den b]
    field_simp

theorem ratFloor_eq (q : ℚ) : Rat.floor q = Int.floor q := rfl

theorem ppsRow_price (r : Row) : (ppsRow r).price_numeric = r.price_numeric := by
  unfold ppsRow
  split <;> rfl

theorem ppsRow_currency (r : Row) : (ppsRow r).currency = r.currency := by
  unfold ppsRow
  split <;> rfl

theorem ppsRow_area (r : Row) : (ppsRow r).area_numeric = r.area_numeric := by
  unfold ppsRow
  split <;> rfl

theorem ppsRow_pos (r : Row) (h : pfGtQ r.area_numeric 0 = true) :
    (ppsRow r).price_per_sqm = pfDiv r.price_numeric r.area_numeric := by
  unfold ppsRow
  rw [if_pos h]

theorem ppsRow_neg (r : Row) (h : pfGtQ r.area_numeric 0 = false) :
    ppsRow r = r := by
  unfold ppsRow
  rw [if_neg (by simp [h])]

theorem reconRow_currency (r : Row) : (reconRow r).currency = some "PEN" := rfl

theorem reconRow_pps (r : Row) :
    (reconRow r).price_per_sqm = r.price_per_sqm := rfl

/-- C2: `parse_amount` returns exactly 190.0 on "190,000", 9990.0 on
"9,990", 1400.0 on "1,400,000", 1234.0 on "1234,567,890", and no value on
the empty string and on a missing input. -/
theorem claim2_parse_amount_examples :
    parse_amount (some "190,000") = some (PF.fin 190) ∧
    parse_amount (some "9,990") = some (PF.fin 9990) ∧
    parse_amount (some "1,400,000") = some (PF.fin 1400) ∧
    parse_amount (some "1234,567,890") = some (PF.fin 1234) ∧
    parse_amount (some "") = none ∧ parse_amount none = none := by
  exact ⟨by decide, by decide, by decide, by decide, by decide, rfl⟩

/-- C8: `parse_amount` is total: on every input (including a missing one,
the empty string and whitespace-only strings) it returns either a parsed
amount or no value; whitespace-only input yields no value, and no branch
escapes with anything but these two outcomes. -/
theorem claim8_parse_amount_total (v : Option String) (s : String)
    (hs : pyStrip s = "") :
    ((∃ x, parse_amount v = some x) ∨ parse_amount v = none) ∧
    parse_amount none = none ∧ parse_amount (some s) = none := by
  refine ⟨?_, rfl, ?_⟩
  · cases h : parse_amount v with
    | none => exact Or.inr rfl
    | some x => exact Or.inl ⟨x, rfl⟩
  · simp [parse_amount, hs]

/-- Closed instance of C8 at a whitespace-only and an unparseable input. -/
theorem claim8_witness :
    ((∃ x, parse_amount (some "abc") = some x) ∨
      parse_amount (some "abc") = none) ∧
    parse_amount none = none ∧ parse_amount (some "  ") = none :=
  claim8_parse_amount_total (some "abc") "  " (by decide)

theorem priceInRange_fin (r : Row) (hp : priceInRange r = true) :
    ∃ q : ℚ, r.price_numeric = PF.fin q ∧ MIN_PRICE < q ∧ q ≤ MAX_PRICE := by
  unfold priceInRange at hp
  rcases (Bool.and_eq_true _ _).mp hp with ⟨h1, h2⟩
  cases hq : r.price_numeric with
  | fin q =>
    refine ⟨q, rfl, ?_, ?_⟩
    · rw [hq] at h1
      exact of_decide_eq_true h1
    · rw [hq] at h2
      exact of_decide_eq_true h2
  | pinf =>
    rw [hq] at h2
    exact absurd h2 (by simp [pfLeQ])
  | ninf =>
    rw [hq] at h1
    exact absurd h1 (by simp [pfGtQ])
  | nan =>
    rw [hq] at h1
    exact absurd h1 (by simp [pfGtQ])

/-- C1: every row surviving the price reconciler has a finite
`price_numeric` strictly above `MIN_PRICE` and at most `MAX_PRICE`, and
its `currency` equals the reference currency "PEN"; rows whose recomputed
price is missing or out of range never appear in the output. -/
theorem claim1_reconciled_range (df : List Row) (r : Row)
    (hr : r ∈ apply_notebook_cleaning_rules df) :
    (∃ q : ℚ, r.price_numeric = PF.fin q ∧ MIN_PRICE < q ∧ q ≤ MAX_PRICE) ∧
    r.currency = some "PEN" := by
  unfold apply_notebook_cleaning_rules at hr
  rcases List.mem_map.mp hr with ⟨r1, hr1, rfl⟩
  have hp : priceInRange r1 = true := List.of_mem_filter hr1
  have hr1' : r1 ∈ (df.map reconRow) := List.mem_of_mem_filter hr1
  rcases List.mem_map.mp hr1' with ⟨r0, _, rfl⟩
  constructor
  · rw [ppsRow_price]
    exact priceInRange_fin _ hp
  · rw [ppsRow_currency, reconRow_currency]

/-- Closed instance of C1 on a one-row dataset. -/
theorem claim1_witness :
    (∃ q : ℚ,
        (Row.price_numeric
          { price_raw := some "S/ 9,990 · 100 m²", area_numeric := PF.fin 50,
            price_numeric := PF.fin 9990, currency := some "PEN",
            price_per_sqm := PF.fin (Rat.divInt 999 5) }) = PF.fin q ∧
        MIN_PRICE < q ∧ q ≤ MAX_PRICE) ∧
    (Row.currency
      { price_raw := some "S/ 9,990 · 100 m²", area_numeric := PF.fin 50,
        price_numeric := PF.fin 9990, currency := some "PEN",
        price_per_sqm := PF.fin (Rat.divInt 999 5) }) = some "PEN" :=
  claim1_reconciled_range
    [{ price_raw := some "S/ 9,990 · 100 m²", area_numeric := PF.fin 50 }] _
    (by decide)

/-- C5 counterexample: a surviving row with missing `area_numeric` keeps
the `price_per_sqm` value it arrived with (7.0) instead of having it
null, refuting the "else null/unset" half of the claim. -/
theorem claim5_cex :
    ¬ (∀ r ∈ apply_notebook_cleaning_rules
          [{ price_raw := some "S/ 100", price_per_sqm := PF.fin 7 }],
        pfGtQ r.area_numeric 0 = false → r.price_per_sqm = PF.nan) := by
  decide

/-- C5 (amended): surviving rows with `area_numeric > 0` get
`price_per_sqm = price_numeric / area_numeric`; surviving rows with a
missing or non-positive area retain the `price_per_sqm` value of their
input row instead of having it unset. -/
theorem claim5_pps_recompute (df : List Row) (r : Row)
    (hr : r ∈ apply_notebook_cleaning_rules df) :
    (pfGtQ r.area_numeric 0 = true →
        r.price_per_sqm = pfDiv r.price_numeric r.area_numeric) ∧
    (pfGtQ r.area_numeric 0 = false →
        ∃ r0 ∈ df, r.price_per_sqm = r0.price_per_sqm) := by
  unfold apply_notebook_cleaning_rules at hr
  rcases List.mem_map.mp hr with ⟨r1, hr1, rfl⟩
  have hr1' : r1 ∈ (df.map reconRow) := List.mem_of_mem_filter hr1
  rcases List.mem_map.mp hr1' with ⟨r0, hr0, rfl⟩
  constructor
  · intro hgt
    rw [ppsRow_area] at hgt
    rw [ppsRow_pos _ hgt, ppsRow_price, ppsRow_area]
  · intro hle
    rw [ppsRow_area] at hle
    rw [ppsRow_neg _ hle]
    exact ⟨r0, hr0, (reconRow_pps r0).symm ▸ rfl⟩

/-- Closed instance of the amended C5 on the counterexample dataset. -/
theorem claim5_witness :
    (pfGtQ
        (Row.area_numeric
          { price_raw := some "S/ 100", price_per_sqm := PF.fin 7,
            price_numeric := PF.fin 100, currency := some "PEN" }) 0 = true →
      (Row.price_per_sqm
          { price_raw := some "S/ 100", price_per_sqm := PF.fin 7,
            price_numeric := PF.fin 100, currency := some "PEN" }) =
        pfDiv (PF.fin 100) PF.nan) ∧
    (pfGtQ
        (Row.area_numeric
          { price_raw := some "S/ 100", price_per_sqm := PF.fin 7,
            price_numeric := PF.fin 100, currency := some "PEN" }) 0 = false →
      ∃ r0 ∈ [({ price_raw := some "S/ 100", price_per_sqm := PF.fin 7 } : Row)],
        (Row.price_per_sqm
          { price_raw := some "S/ 100", price_per_sqm := PF.fin 7,
            price_numeric := PF.fin 100, currency := some "PEN" }) =
          r0.price_per_sqm) :=
  claim5_pps_recompute
    [{ price_raw := some "S/ 100", price_per_sqm := PF.fin 7 }] _ (by decide)

theorem reconRow_price_nan (r : Row)
    (h : (parse_amount (some (cleanedSegment r.price_raw))).getD PF.nan = PF.nan) :
    (reconRow r).price_numeric = PF.nan := by
  unfold reconRow
  simp only [h, pfNotNA, Bool.and_false, Bool.false_eq_true, if_false]

/-- C10: the reconciled `price_numeric` is computed solely from
`price_raw` and the currency field by the claimed formula; whatever
`price_numeric` the input row carried is overwritten and affects neither
the output value nor survival; and a row whose `price_raw` is missing or
unparseable is dropped whatever `price_numeric` it arrived with. -/
theorem claim10_price_recompute (r : Row) (p : PF) :
    (reconRow r).price_numeric = specPrice r.price_raw r.currency ∧
    apply_notebook_cleaning_rules [{ r with price_numeric := p }] =
      apply_notebook_cleaning_rules [r] ∧
    ((parse_amount (some (cleanedSegment r.price_raw))).getD PF.nan = PF.nan →
      apply_notebook_cleaning_rules [{ r with price_numeric := p }] = []) := by
  have hsame : reconRow { r with price_numeric := p } = reconRow r := rfl
  refine ⟨?_, ?_, ?_⟩
  · unfold reconRow specPrice
    by_cases hpen : containsTok (pyStr r.price_raw) "S/"
    · simp [hpen]
    · by_cases husd : containsTok (pyStr r.price_raw) "USD"
      · simp [hpen, husd]
      · simp [hpen, husd]
  · unfold apply_notebook_cleaning_rules
    rw [List.map_cons, List.map_nil, List.map_cons, List.map_nil, hsame]
  · intro h
    unfold apply_notebook_cleaning_rules
    rw [List.map_cons, List.map_nil]
    have hpl : priceInRange (reconRow { r with price_numeric := p }) = false := by
      unfold priceInRange
      rw [hsame, reconRow_price_nan r h]
      rfl
    simp [List.filter_cons, hpl]

/-- Closed instance of C10: a row with unparseable `price_raw` is dropped
even though it arrived with the in-range price 50.0. -/
theorem claim10_witness :
    apply_notebook_cleaning_rules
      [{ ({ price_raw := some "garbage" } : Row) with
          price_numeric := PF.fin 50 }] = [] :=
  (claim10_price_recompute { price_raw := some "garbage" } (PF.fin 50)).2.2
    (by decide)

theorem dedupByKeyAux_sublist {α κ : Type} [DecidableEq κ] (k : α → κ) :
    ∀ (seen : List κ) (l : List α), (dedupByKeyAux k seen l).Sublist l := by
  intro seen l
  induction l generalizing seen with
  | nil => simp [dedupByKeyAux]
  | cons a rest ih =>
    unfold dedupByKeyAux
    split
    · exact (ih seen).trans (List.sublist_cons_self a rest)
    · exact List.Sublist.cons₂ a (ih _)

theorem dedupByKeyAux_notin_seen {α κ : Type} [DecidableEq κ] (k : α → κ) :
    ∀ (seen : List κ) (l : List α) (x : α),
      x ∈ dedupByKeyAux k seen l → k x ∉ seen := by
  intro seen l
  induction l generalizing seen with
  | nil => intro x hx; simp [dedupByKeyAux] at hx
  | cons a rest ih =>
    intro x hx
    unfold dedupByKeyAux at hx
    split at hx
    · exact ih seen x hx
    · rcases List.mem_cons.mp hx with rfl | hx'
      · assumption
      · intro hmem
        exact ih (k a :: seen) x hx' (List.mem_cons_of_mem _ hmem)

theorem dedupByKeyAux_pairwise {α κ : Type} [DecidableEq κ] (k : α → κ) :
    ∀ (seen : List κ) (l : List α),
      (dedupByKeyAux k seen l).Pairwise (fun a b => k a ≠ k b) := by
  intro seen l
  induction l generalizing seen with
  | nil => simp [dedupByKeyAux]
  | cons a rest ih =>
    unfold dedupByKeyAux
    split
    · exact ih seen
    · refine List.Pairwise.cons ?_ (ih (k a :: seen))
      intro b hb hkab
      exact dedupByKeyAux_notin_seen k _ _ b hb (hkab ▸ List.mem_cons_self _ _)

theorem dedupByKeyAux_eq_self {α κ : Type} [DecidableEq κ] (k : α → κ) :
    ∀ (seen : List κ) (l : List α),
      l.Pairwise (fun a b => k a ≠ k b) → (∀ x ∈ l, k x ∉ seen) →
      dedupByKeyAux k seen l = l := by
  intro seen l
  induction l generalizing seen with
  | nil => intro _ _; rfl
  | cons a rest ih =>
    intro hpw hseen
    unfold dedupByKeyAux
    rw [if_neg (hseen a (List.mem_cons_self _ _))]
    congr 1
    refine ih (k a :: seen) (List.Pairwise.of_cons hpw) ?_
    intro x hx
    intro hmem
    rcases List.mem_cons.mp hmem with heq | hmem'
    · exact (List.rel_of_pairwise_cons hpw hx) heq.symm
    · exact hseen x (List.mem_cons_of_mem _ hx) hmem'

theorem dedupByKeyAux_first {α κ : Type} [DecidableEq κ] (k : α → κ)
    {R : α → α → Prop} (hrefl : ∀ a, R a a) :
    ∀ (seen : List κ) (l : List α), l.Pairwise R →
      ∀ r ∈ dedupByKeyAux k seen l, ∀ x ∈ l, k x = k r → R r x := by
  intro seen l
  induction l generalizing seen with
  | nil => intro _ r hr; simp [dedupByKeyAux] at hr
  | cons a rest ih =>
    intro hpw r hr x hx hk
    unfold dedupByKeyAux at hr
    split at hr
    · rename_i hseen
      rcases List.mem_cons.mp hx with rfl | hx'
      · exact absurd (hk ▸ hseen) (dedupByKeyAux_notin_seen k seen rest r hr)
      · exact ih seen (List.Pairwise.of_cons hpw) r hr x hx' hk
    · rcases List.mem_cons.mp hr with rfl | hr'
      · rcases List.mem_cons.mp hx with rfl | hx'
        · exact hrefl _
        · exact List.rel_of_pairwise_cons hpw hx'
      · rcases List.mem_cons.mp hx with rfl | hx'
        · have hnot := dedupByKeyAux_notin_seen k (k x :: seen) rest r hr'
          exact absurd (by rw [← hk]; exact List.mem_cons_self _ _) hnot
        · exact ih (k a :: seen) (List.Pairwise.of_cons hpw) r hr' x hx' hk

theorem dedupByKey_sublist {α κ : Type} [DecidableEq κ] (k : α → κ)
    (l : List α) : (dedupByKey k l).Sublist l :=
  dedupByKeyAux_sublist k [] l

theorem dedupByKey_pairwise {α κ : Type} [DecidableEq κ] (k : α → κ)
    (l : List α) : (dedupByKey k l).Pairwise (fun a b => k a ≠ k b) :=
  dedupByKeyAux_pairwise k [] l

theorem dedupByKey_eq_self {α κ : Type} [DecidableEq κ] (k : α → κ)
    (l : List α) (h : l.Pairwise (fun a b => k a ≠ k b)) :
    dedupByKey k l = l :=
  dedupByKeyAux_eq_self k [] l h (by simp)

theorem dedupByKey_first {α κ : Type} [DecidableEq κ] (k : α → κ)
    {R : α → α → Prop} (hrefl : ∀ a, R a a) (l : List α) (hpw : l.Pairwise R) :
    ∀ r ∈ dedupByKey k l, ∀ x ∈ l, k x = k r → R r x :=
  dedupByKeyAux_first k hrefl [] l hpw

theorem pairwise_key_inj {α κ : Type} (k : α → κ) (l : List α)
    (h : l.Pairwise (fun a b => k a ≠ k b)) :
    ∀ a ∈ l, ∀ b ∈ l, k a = k b → a = b := by
  induction l with
  | nil => intro a ha; simp at ha
  | cons c rest ih =>
    intro a ha b hb hk
    rcases List.mem_cons.mp ha with rfl | ha' <;>
      rcases List.mem_cons.mp hb with h2 | hb'
    · rw [h2]
    · exact absurd hk (List.rel_of_pairwise_cons h hb')
    · exact absurd hk.symm (h2 ▸ List.rel_of_pairwise_cons h ha')
    · exact ih (List.Pairwise.of_cons h) a ha' b hb' hk

theorem countP_le_one_of_pairwise {α κ : Type} [DecidableEq κ] (k : α → κ)
    (l : List α) (h : l.Pairwise (fun a b => k a ≠ k b)) (u : κ) :
    l.countP (fun a => decide (k a = u)) ≤ 1 := by
  induction l with
  | nil => simp
  | cons c rest ih =>
    rw [List.countP_cons]
    by_cases hc : k c = u
    · have hzero : rest.countP (fun a => decide (k a = u)) = 0 := by
        rw [List.countP_eq_zero]
        intro b hb
        simp only [decide_eq_true_eq]
        intro hbu
        exact (List.rel_of_pairwise_cons h hb) (hc ▸ hbu ▸ rfl)
      simp [hc, hzero]
    · simp only [hc, decide_eq_true_eq, if_neg hc]
      simpa using ih (List.Pairwise.of_cons h)

theorem cdLe_refl (l : List Nat) : cdLe l l = true := by
  induction l with
  | nil => rfl
  | cons x xs ih => simp [cdLe, ih]

theorem cdLe_total (a : List Nat) : ∀ b, cdLe a b = true ∨ cdLe b a = true := by
  induction a with
  | nil => intro b; exact Or.inl rfl
  | cons x xs ih =>
    intro b
    cases b with
    | nil => exact Or.inr rfl
    | cons y ys =>
      simp only [cdLe]
      by_cases hxy : x = y
      · subst hxy
        rw [if_pos rfl, if_pos rfl]
        exact ih ys
      · rw [if_neg hxy, if_neg (Ne.symm hxy)]
        rcases Nat.lt_or_ge x y with h | h
        · exact Or.inl (decide_eq_true h)
        · exact Or.inr (decide_eq_true (by omega))

theorem cdLe_trans (a : List Nat) :
    ∀ b c, cdLe a b = true → cdLe b c = true → cdLe a c = true := by
  induction a with
  | nil => intro b c _ _; rfl
  | cons x xs ih =>
    intro b c h1 h2
    cases b with
    | nil => simp [cdLe] at h1
    | cons y ys =>
      cases c with
      | nil => simp [cdLe] at h2
      | cons z zs =>
        simp only [cdLe] at h1 h2 ⊢
        by_cases hxy : x = y
        · subst hxy
          rw [if_pos rfl] at h1
          by_cases hxz : x = z
          · subst hxz
            rw [if_pos rfl] at h2
            rw [if_pos rfl]
            exact ih ys zs h1 h2
          · rw [if_neg hxz] at h2
            rw [if_neg hxz]
            exact h2
        · rw [if_neg hxy] at h1
          have hlt1 : x < y := of_decide_eq_true h1
          by_cases hyz : y = z
          · subst hyz
            rw [if_neg hxy]
            exact decide_eq_true hlt1
          · rw [if_neg hyz] at h2
            have hlt2 : y < z := of_decide_eq_true h2
            have hxz : x ≠ z := by omega
            rw [if_neg hxz]
            exact decide_eq_true (by omega)

theorem strLe_refl (s : String) : strLe s s = true := cdLe_refl _

theorem strLe_total (a b : String) : strLe a b = true ∨ strLe b a = true :=
  cdLe_total _ _

theorem strLe_trans {a b c : String} (h1 : strLe a b = true)
    (h2 : strLe b c = true) : strLe a c = true :=
  cdLe_trans _ _ _ h1 h2

theorem optStrLe_refl (x : Option String) : optStrLe x x = true := by
  cases x with
  | none => rfl
  | some s => exact strLe_refl s

theorem optStrLe_total (x y : Option String) :
    optStrLe x y = true ∨ optStrLe y x = true := by
  cases x <;> cases y <;> simp [optStrLe]
  exact strLe_total _ _

theorem optStrLe_trans {x y z : Option String} (h1 : optStrLe x y = true)
    (h2 : optStrLe y z = true) : optStrLe x z = true := by
  cases x <;> cases y <;> cases z <;> simp_all [optStrLe]
  exact strLe_trans h1 h2

theorem rowLe_refl (r : Row) : rowLe r r := optStrLe_refl _

instance : IsTotal Row rowLe :=
  ⟨fun a b => optStrLe_total a.scraped_at b.scraped_at⟩

instance : IsTrans Row rowLe :=
  ⟨fun _ _ _ h1 h2 => optStrLe_trans h1 h2⟩

theorem canonObj_idem (o : PyObj) : canonObj (canonObj o) = canonObj o := by
  cases o <;> rfl

theorem canonRow_idem (r : Row) : canonRow (canonRow r) = canonRow r := by
  obtain ⟨gi, ts, ti, u, lo, pt, pr, pn, cu, pps, an, bd, ba, ft, im⟩ := r
  simp [canonRow, canonObj_idem]

theorem canonRow_url (r : Row) : (canonRow r).url = r.url := rfl

theorem canonRow_ts (r : Row) : (canonRow r).scraped_at = r.scraped_at := rfl

theorem canonRow_hasRealUrl (r : Row) :
    hasRealUrl (canonRow r) = hasRealUrl r := rfl

theorem dedup_sub_sorted (df : List Row) (r : Row)
    (hr : r ∈ deduplicate_df df) :
    r ∈ List.insertionSort rowLe (df.map canonRow) := by
  unfold deduplicate_df at hr
  rcases List.mem_append.mp hr with h | h
  · exact List.mem_of_mem_filter ((dedupByKey_sublist _ _).subset h)
  · exact List.mem_of_mem_filter
      ((dedupByKey_sublist ftNorm _).subset ((dedupByKey_sublist compKey _).subset h))

theorem dedup_source (df : List Row) (r : Row) (hr : r ∈ deduplicate_df df) :
    ∃ r0 ∈ df, r = canonRow r0 := by
  have h := dedup_sub_sorted df r hr
  rw [List.mem_insertionSort] at h
  rcases List.mem_map.mp h with ⟨r0, hr0, rfl⟩
  exact ⟨r0, hr0, rfl⟩

theorem dedup_mem_split (df : List Row) (r : Row) (hr : r ∈ deduplicate_df df) :
    (hasRealUrl r = true ∧
      r ∈ dedupByKey Row.url
        ((List.insertionSort rowLe (df.map canonRow)).filter hasRealUrl)) ∨
    (hasRealUrl r = false ∧
      r ∈ dedupByKey compKey (dedupByKey ftNorm
        ((List.insertionSort rowLe (df.map canonRow)).filter
          (fun x => !hasRealUrl x)))) := by
  unfold deduplicate_df at hr
  rcases List.mem_append.mp hr with h | h
  · exact Or.inl ⟨List.of_mem_filter ((dedupByKey_sublist _ _).subset h), h⟩
  · refine Or.inr ⟨?_, h⟩
    have hm : r ∈ (List.insertionSort rowLe (df.map canonRow)).filter
        (fun x => !hasRealUrl x) :=
      (dedupByKey_sublist ftNorm _).subset ((dedupByKey_sublist compKey _).subset h)
    have := List.of_mem_filter hm
    simpa using this

/-- C9 counterexample: the deduplicator returns the canonicalized tuple
("a","b") in `image_urls`, not the input list ["b","a","a"] — the
canonical form is persisted, not used for comparison only. -/
theorem claim9_cex :
    (deduplicate_df
        [{ url := some "http://a.com/1",
           image_urls := PyObj.pylist ["b", "a", "a"] }]).map Row.image_urls =
      [PyObj.pytuple ["a", "b"]] ∧
    PyObj.pytuple ["a", "b"] ≠ PyObj.pylist ["b", "a", "a"] := by decide

/-- C9 (amended): every row retained by the deduplicator is an input row
with every field unchanged except `image_urls`, which is replaced by its
canonical order-independent duplicate-free representation. -/
theorem claim9_canon_persisted (df : List Row) (r : Row)
    (hr : r ∈ deduplicate_df df) :
    ∃ r0 ∈ df, r = { r0 with image_urls := canonObj r0.image_urls } :=
  dedup_source df r hr

/-- Closed instance of the amended C9. -/
theorem claim9_witness :
    ∃ r0 ∈ [({ url := some "http://a.com/1",
               image_urls := PyObj.pylist ["b", "a", "a"] } : Row)],
      ({ url := some "http://a.com/1",
         image_urls := PyObj.pytuple ["a", "b"] } : Row) =
        { r0 with image_urls := canonObj r0.image_urls } :=
  claim9_canon_persisted
    [{ url := some "http://a.com/1", image_urls := PyObj.pylist ["b", "a", "a"] }]
    { url := some "http://a.com/1", image_urls := PyObj.pytuple ["a", "b"] }
    (by decide)

/-- C4 counterexample: two distinct rows whose identity key is entirely
empty (no URL, missing full text, all composite-key fields unknown) do
NOT both survive: they collide on the stringified missing full text and
collapse to one row. -/
theorem claim4_cex :
    ({ global_index := PF.fin 1 } : Row) ≠ { global_index := PF.fin 2 } ∧
    (({ global_index := PF.fin 1 } : Row)).url = none ∧
    (({ global_index := PF.fin 1 } : Row)).full_text = none ∧
    (({ global_index := PF.fin 1 } : Row)).title = none ∧
    (({ global_index := PF.fin 2 } : Row)).url = none ∧
    (({ global_index := PF.fin 2 } : Row)).full_text = none ∧
    deduplicate_df [{ global_index := PF.fin 1 }, { global_index := PF.fin 2 }] =
      [{ global_index := PF.fin 1 }] := by decide

/-- C4 (amended): among rows without a usable URL, the normalized full
text is a collapsing key even when full_text is missing (the missing
value stringifies to a fixed sentinel), so any two retained no-URL rows
with missing full_text are equal — an entirely empty identity key does
collapse distinct rows rather than preserving them. -/
theorem claim4_empty_key_collapse (df : List Row) (r1 r2 : Row)
    (h1 : r1 ∈ deduplicate_df df) (h2 : r2 ∈ deduplicate_df df)
    (hu1 : hasRealUrl r1 = false) (hu2 : hasRealUrl r2 = false)
    (hf1 : r1.full_text = none) (hf2 : r2.full_text = none) : r1 = r2 := by
  rcases dedup_mem_split df r1 h1 with ⟨hh, _⟩ | ⟨_, hm1⟩
  · rw [hu1] at hh; cases hh
  rcases dedup_mem_split df r2 h2 with ⟨hh, _⟩ | ⟨_, hm2⟩
  · rw [hu2] at hh; cases hh
  have hft : ftNorm r1 = ftNorm r2 := by
    unfold ftNorm
    rw [hf1, hf2]
  have hpw1 := dedupByKey_pairwise ftNorm
    ((List.insertionSort rowLe (df.map canonRow)).filter (fun x => !hasRealUrl x))
  have hpw2 := hpw1.sublist (dedupByKey_sublist compKey _)
  exact pairwise_key_inj ftNorm _ hpw2 r1 hm1 r2 hm2 hft

/-- Closed instance of the amended C4 on a one-row dataset. -/
theorem claim4_witness :
    ({ global_index := PF.fin 1 } : Row) = { global_index := PF.fin 1 } :=
  claim4_empty_key_collapse [{ global_index := PF.fin 1 }]
    { global_index := PF.fin 1 } { global_index := PF.fin 1 }
    (by decide) (by decide) rfl rfl rfl rfl

theorem hasRealUrl_of_url (r : Row) (u : String) (hurl : r.url = some u)
    (h1 : 3 < u.length) (h2 : listStarts ("http".toList) u.toList = true) :
    hasRealUrl r = true := by
  unfold hasRealUrl
  rw [hurl]
  have h2a : listStarts ['h', 't', 't', 'p'] u.data = true := h2
  simp [h1, h2a]

/-- C3 counterexample: of two rows sharing the same usable URL, the
survivor is the row with the EARLIEST scrape timestamp ("2024-01-01"),
not the most recently scraped one ("2024-01-02"). -/
theorem claim3_cex :
    deduplicate_df
        [{ url := some "http://a.com/1", scraped_at := some "2024-01-02" },
         { url := some "http://a.com/1", scraped_at := some "2024-01-01" }] =
      [{ url := some "http://a.com/1", scraped_at := some "2024-01-01" }] ∧
    (some "2024-01-01" : Option String) ≠ some "2024-01-02" := by decide

/-- C3 (amended): for any usable URL, at most one row with that URL
survives deduplication, and the survivor's scrape timestamp precedes (in
the missing-last sort order) that of every input row carrying the same
URL — i.e. the earliest-scraped row wins, not the most recent. -/
theorem claim3_url_dedup (df : List Row) (u : String)
    (hlen : 3 < u.length) (hpre : listStarts ("http".toList) u.toList = true) :
    ((deduplicate_df df).countP (fun r => decide (r.url = some u)) ≤ 1) ∧
    (∀ r ∈ deduplicate_df df, r.url = some u →
      ∀ x ∈ df, x.url = some u → optStrLe r.scraped_at x.scraped_at = true) := by
  constructor
  · show (List.countP _ _ ≤ 1)
    unfold deduplicate_df
    rw [List.countP_append]
    have hnu : (dedupByKey compKey (dedupByKey ftNorm
        ((List.insertionSort rowLe (df.map canonRow)).filter
          (fun x => !hasRealUrl x)))).countP
        (fun r => decide (r.url = some u)) = 0 := by
      rw [List.countP_eq_zero]
      intro r hrm
      simp only [decide_eq_true_eq]
      intro hurl
      have hmem : r ∈ (List.insertionSort rowLe (df.map canonRow)).filter
          (fun x => !hasRealUrl x) :=
        (dedupByKey_sublist ftNorm _).subset
          ((dedupByKey_sublist compKey _).subset hrm)
      have hfalse := List.of_mem_filter hmem
      rw [hasRealUrl_of_url r u hurl hlen hpre] at hfalse
      cases hfalse
    rw [hnu]
    simpa using countP_le_one_of_pairwise Row.url _
      (dedupByKey_pairwise Row.url
        ((List.insertionSort rowLe (df.map canonRow)).filter hasRealUrl))
      (some u)
  · intro r hr hurl x hx hxurl
    rcases dedup_mem_split df r hr with ⟨_, hwu⟩ | ⟨hh, _⟩
    · have hsorted : ((List.insertionSort rowLe (df.map canonRow)).filter
          hasRealUrl).Pairwise rowLe :=
        (List.sorted_insertionSort rowLe (df.map canonRow)).sublist
          (List.filter_sublist _)
      have hfirst := dedupByKey_first Row.url rowLe_refl _ hsorted r hwu
      have hcx : canonRow x ∈ (List.insertionSort rowLe (df.map canonRow)).filter
          hasRealUrl := by
        refine List.mem_filter.mpr ⟨?_, ?_⟩
        · rw [List.mem_insertionSort]
          exact List.mem_map_of_mem canonRow hx
        · rw [canonRow_hasRealUrl]
          exact hasRealUrl_of_url x u hxurl hlen hpre
      have hkey : (canonRow x).url = r.url := by
        rw [canonRow_url, hxurl, hurl]
      have := hfirst (canonRow x) hcx hkey
      unfold rowLe at this
      rw [canonRow_ts] at this
      exact this
    · rw [hasRealUrl_of_url r u hurl hlen hpre] at hh
      cases hh

/-- Closed instance of the amended C3 on the two-row counterexample
dataset. -/
theorem claim3_witness :
    ((deduplicate_df
        [{ url := some "http://a.com/1", scraped_at := some "2024-01-02" },
         { url := some "http://a.com/1", scraped_at := some "2024-01-01" }]).countP
      (fun r => decide (r.url = some "http://a.com/1")) ≤ 1) ∧
    (∀ r ∈ deduplicate_df
        [{ url := some "http://a.com/1", scraped_at := some "2024-01-02" },
         { url := some "http://a.com/1", scraped_at := some "2024-01-01" }],
      r.url = some "http://a.com/1" →
      ∀ x ∈ [({ url := some "http://a.com/1",
                scraped_at := some "2024-01-02" } : Row),
             { url := some "http://a.com/1", scraped_at := some "2024-01-01" }],
        x.url = some "http://a.com/1" →
        optStrLe r.scraped_at x.scraped_at = true) :=
  claim3_url_dedup _ "http://a.com/1" (by decide) (by decide)

theorem dedup_canon_fixed (df : List Row) :
    (deduplicate_df df).map canonRow = deduplicate_df df := by
  have h : ∀ r ∈ deduplicate_df df, canonRow r = r := by
    intro r hr
    rcases dedup_source df r hr with ⟨r0, _, rfl⟩
    exact canonRow_idem r0
  calc (deduplicate_df df).map canonRow
      = (deduplicate_df df).map id := List.map_congr_left h
    _ = deduplicate_df df := List.map_id _

/-- C6: deduplication is idempotent — applying the deduplicator to its
own output returns the same set of rows (a permutation of it). -/
theorem claim6_dedup_idempotent (df : List Row) :
    (deduplicate_df (deduplicate_df df)).Perm (deduplicate_df df) := by
  have hsymmU : ∀ {x y : Row}, x.url ≠ y.url → y.url ≠ x.url :=
    fun h h2 => h h2.symm
  have hsymmF : ∀ {x y : Row}, ftNorm x ≠ ftNorm y → ftNorm y ≠ ftNorm x :=
    fun h h2 => h h2.symm
  have hsymmC : ∀ {x y : Row}, compKey x ≠ compKey y → compKey y ≠ compKey x :=
    fun h h2 => h h2.symm
  set S1 := List.insertionSort rowLe (df.map canonRow) with hS1
  set WU := dedupByKey Row.url (S1.filter hasRealUrl) with hWU
  set NU := dedupByKey compKey
    (dedupByKey ftNorm (S1.filter (fun r => !hasRealUrl r))) with hNU
  have hL : deduplicate_df df = WU ++ NU := rfl
  have hS2perm : (List.insertionSort rowLe
      ((deduplicate_df df).map canonRow)).Perm (WU ++ NU) := by
    rw [dedup_canon_fixed df, hL]
    exact List.perm_insertionSort rowLe _
  have hWUtrue : ∀ r ∈ WU, hasRealUrl r = true := by
    intro r hr
    exact List.of_mem_filter ((dedupByKey_sublist _ _).subset hr)
  have hNUfalse : ∀ r ∈ NU, hasRealUrl r = false := by
    intro r hr
    have := List.of_mem_filter ((dedupByKey_sublist ftNorm _).subset
      ((dedupByKey_sublist compKey _).subset hr))
    simpa using this
  have e1 : WU.filter hasRealUrl = WU := List.filter_eq_self.mpr hWUtrue
  have e2 : NU.filter hasRealUrl = [] :=
    List.filter_eq_nil_iff.mpr (fun a ha => by simp [hNUfalse a ha])
  have e3 : WU.filter (fun r => !hasRealUrl r) = [] :=
    List.filter_eq_nil_iff.mpr (fun a ha => by simp [hWUtrue a ha])
  have e4 : NU.filter (fun r => !hasRealUrl r) = NU :=
    List.filter_eq_self.mpr (fun a ha => by simp [hNUfalse a ha])
  have hfil1 : ((List.insertionSort rowLe
      ((deduplicate_df df).map canonRow)).filter hasRealUrl).Perm WU := by
    have h := hS2perm.filter hasRealUrl
    rwa [List.filter_append, e1, e2, List.append_nil] at h
  have hfil2 : ((List.insertionSort rowLe
      ((deduplicate_df df).map canonRow)).filter
        (fun r => !hasRealUrl r)).Perm NU := by
    have h := hS2perm.filter (fun r => !hasRealUrl r)
    rwa [List.filter_append, e3, e4, List.nil_append] at h
  have hfil1pw : ((List.insertionSort rowLe
      ((deduplicate_df df).map canonRow)).filter hasRealUrl).Pairwise
        (fun a b => a.url ≠ b.url) :=
    (List.Perm.pairwise_iff hsymmU hfil1).mpr (dedupByKey_pairwise Row.url _)
  have hwu2 := dedupByKey_eq_self Row.url _ hfil1pw
  have hNUpwF : NU.Pairwise (fun a b => ftNorm a ≠ ftNorm b) :=
    (dedupByKey_pairwise ftNorm _).sublist (dedupByKey_sublist compKey _)
  have hfil2pwF : ((List.insertionSort rowLe
      ((deduplicate_df df).map canonRow)).filter
        (fun r => !hasRealUrl r)).Pairwise (fun a b => ftNorm a ≠ ftNorm b) :=
    (List.Perm.pairwise_iff hsymmF hfil2).mpr hNUpwF
  have hnu1 := dedupByKey_eq_self ftNorm _ hfil2pwF
  have hfil2pwC : ((List.insertionSort rowLe
      ((deduplicate_df df).map canonRow)).filter
        (fun r => !hasRealUrl r)).Pairwise
        (fun a b => compKey a ≠ compKey b) :=
    (List.Perm.pairwise_iff hsymmC hfil2).mpr (dedupByKey_pairwise compKey _)
  have hnu2 : dedupByKey compKey (dedupByKey ftNorm
      ((List.insertionSort rowLe
        ((deduplicate_df df).map canonRow)).filter
          (fun r => !hasRealUrl r))) =
      (List.insertionSort rowLe
        ((deduplicate_df df).map canonRow)).filter
          (fun r => !hasRealUrl r) := by
    rw [hnu1]
    exact dedupByKey_eq_self compKey _ hfil2pwC
  show (dedupByKey Row.url ((List.insertionSort rowLe
      ((deduplicate_df df).map canonRow)).filter hasRealUrl) ++
    dedupByKey compKey (dedupByKey ftNorm
      ((List.insertionSort rowLe
        ((deduplicate_df df).map canonRow)).filter
          (fun r => !hasRealUrl r)))).Perm (deduplicate_df df)
  rw [hwu2, hnu2, hL]
  exact hfil1.append hfil2

theorem list_getD_eq {α : Type} (l : List α) (d : α) (n : Nat)
    (h : n < l.length) : l.getD n d = l[n] := by
  rw [List.getD_eq_getElem?_getD, List.getElem?_eq_getElem h]
  rfl

theorem divInt_one_four : Rat.divInt 1 4 = (1 : ℚ) / 4 := by
  rw [Rat.divInt_eq_div]; norm_num

theorem divInt_three_four : Rat.divInt 3 4 = (3 : ℚ) / 4 := by
  rw [Rat.divInt_eq_div]; norm_num

theorem divInt_three_two : Rat.divInt 3 2 = (3 : ℚ) / 2 := by
  rw [Rat.divInt_eq_div]; norm_num

theorem divInt_one_two : Rat.divInt 1 2 = (1 : ℚ) / 2 := by
  rw [Rat.divInt_eq_div]; norm_num

theorem qpos_eq (p : ℚ) (n : Nat) : qpos p n = p * ((n : ℚ) - 1) := by
  unfold qpos; rw [qMul_eq, qSub_eq]

theorem qpos_nonneg (p : ℚ) (n : Nat) (hp : 0 ≤ p) (hn : 1 ≤ n) : 0 ≤ qpos p n := by
  rw [qpos_eq]
  have h1 : (1 : ℚ) ≤ (n : ℚ) := by exact_mod_cast hn
  nlinarith

theorem qidx_eq_floor (p : ℚ) (n : Nat) (hp : 0 ≤ p) (hn : 1 ≤ n) :
    ((qidx p n : ℤ)) = Int.floor (qpos p n) := by
  unfold qidx
  rw [ratFloor_eq]
  exact Int.toNat_of_nonneg (Int.floor_nonneg.mpr (qpos_nonneg p n hp hn))

theorem qidx_facts (p : ℚ) (n : Nat) (hp : 0 ≤ p) (hn : 1 ≤ n) :
    ((qidx p n : ℚ)) ≤ qpos p n ∧ qpos p n < (qidx p n : ℚ) + 1 := by
  have hc : ((qidx p n : ℚ)) = ((Int.floor (qpos p n) : ℚ)) := by
    have h := qidx_eq_floor p n hp hn
    exact_mod_cast congrArg (fun z : ℤ => (z : ℚ)) h
  exact ⟨by rw [hc]; exact Int.floor_le _, by rw [hc]; exact Int.lt_floor_add_one _⟩

theorem qidx_mono {p q : ℚ} (n : Nat) (hp : 0 ≤ p) (hpq : p ≤ q) (hn : 1 ≤ n) :
    qidx p n ≤ qidx q n := by
  have hq : qpos p n ≤ qpos q n := by
    rw [qpos_eq, qpos_eq]
    have h1 : (1 : ℚ) ≤ (n : ℚ) := by exact_mod_cast hn
    nlinarith
  unfold qidx
  rw [ratFloor_eq, ratFloor_eq]
  exact Int.toNat_le_toNat (Int.floor_le_floor hq)

theorem qidx_upper {p : ℚ} (n : Nat) (hp : 0 ≤ p) (h1 : p < 1) (hn : 2 ≤ n) :
    qidx p n + 1 < n := by
  have hn2 : (2 : ℚ) ≤ (n : ℚ) := by exact_mod_cast hn
  have hlt : qpos p n < (n : ℚ) - 1 := by
    rw [qpos_eq]
    nlinarith [mul_pos (by linarith : (0:ℚ) < 1 - p) (by linarith : (0:ℚ) < (n:ℚ) - 1)]
  have hfl : ((qidx p n : ℚ)) ≤ qpos p n := (qidx_facts p n hp (by omega)).1
  have hq : ((qidx p n : ℚ)) + 1 < (n : ℚ) := by linarith
  exact_mod_cast hq

theorem pfSortLe_refl (x : PF) : pfSortLe x x = true := by
  cases x <;> simp [pfSortLe]

theorem pfSortLe_total (x y : PF) : pfSortLe x y = true ∨ pfSortLe y x = true := by
  cases x <;> cases y <;> simp [pfSortLe] <;> exact le_total _ _

theorem pfSortLe_trans {x y z : PF} (h1 : pfSortLe x y = true) (h2 : pfSortLe y z = true) :
    pfSortLe x z = true := by
  cases x <;> cases y <;> cases z <;> simp_all [pfSortLe] <;> linarith

instance : IsTotal PF pfLe := ⟨fun a b => pfSortLe_total a b⟩

instance : IsTrans PF pfLe := ⟨fun _ _ _ h1 h2 => pfSortLe_trans h1 h2⟩

theorem pfsorted_perm (obs : List PF) : (pfsorted obs).Perm obs :=
  List.perm_insertionSort _ _

theorem pfsorted_length (obs : List PF) : (pfsorted obs).length = obs.length :=
  (pfsorted_perm obs).length_eq

theorem pfsorted_sorted (obs : List PF) : (pfsorted obs).Pairwise pfLe :=
  List.sorted_insertionSort _ _

theorem pfsorted_rel (obs : List PF) {i j : Nat} (hi : i < (pfsorted obs).length)
    (hj : j < (pfsorted obs).length) (hij : i ≤ j) :
    pfSortLe (pfsorted obs)[i] (pfsorted obs)[j] = true := by
  rcases Nat.lt_or_eq_of_le hij with h | h
  · exact List.pairwise_iff_getElem.mp (pfsorted_sorted obs) i j hi hj h
  · subst h; exact pfSortLe_refl _

theorem pfsorted_nonnan (obs : List PF) (hobs : ∀ x ∈ obs, x ≠ PF.nan)
    {i : Nat} (hi : i < (pfsorted obs).length) : (pfsorted obs)[i] ≠ PF.nan := by
  apply hobs
  exact (pfsorted_perm obs).mem_iff.mp (List.getElem_mem hi)

theorem pfSortLe_ninf_right {x : PF} (h : pfSortLe x PF.ninf = true) : x = PF.ninf := by
  cases x <;> simp_all [pfSortLe]

theorem pfSortLe_pinf_left {y : PF} (h : pfSortLe PF.pinf y = true) :
    y = PF.pinf ∨ y = PF.nan := by
  cases y <;> simp_all [pfSortLe]

theorem pfSortLe_fin_fin {a b : ℚ} (h : pfSortLe (PF.fin a) (PF.fin b) = true) : a ≤ b := by
  simp_all [pfSortLe]

theorem pfSortLe_nan_left {y : PF} (h : pfSortLe PF.nan y = true) : y = PF.nan := by
  cases y <;> simp_all [pfSortLe]

theorem pfLtB_nan_right (x : PF) : pfLtB x PF.nan = false := by cases x <;> rfl

theorem pfLtB_ninf_right (x : PF) : pfLtB x PF.ninf = false := by cases x <;> rfl

theorem pfLtB_nan_left (x : PF) : pfLtB PF.nan x = false := by cases x <;> rfl

theorem pfLtB_pinf_left (x : PF) : pfLtB PF.pinf x = false := by cases x <;> rfl

theorem countP_disjoint_le {α : Type} (l : List α) (p q : α → Bool)
    (h : ∀ x, ¬(p x = true ∧ q x = true)) :
    l.countP p + l.countP q ≤ l.length := by
  induction l with
  | nil => simp
  | cons a t ih =>
    rw [List.countP_cons, List.countP_cons, List.length_cons]
    by_cases hp : p a = true <;> by_cases hq : q a = true
    · exact absurd ⟨hp, hq⟩ (h a)
    all_goals simp [hp, hq] <;> omega

theorem dropna_nonnan (xs : List PF) : ∀ x ∈ dropna xs, x ≠ PF.nan := by
  intro x hx
  have h := List.of_mem_filter hx
  cases x <;> simp_all [pfNotNA]

theorem colObs_nonnan (df : List Row) (c : String) : ∀ x ∈ colObs df c, x ≠ PF.nan := by
  intro x hx
  unfold colObs at hx
  split at hx
  · exact dropna_nonnan _ x hx
  · split at hx
    · exact dropna_nonnan _ x hx
    · simp at hx

theorem pfScale_pinf_cases (c : ℚ) :
    pfScale c PF.pinf = PF.pinf ∨ pfScale c PF.pinf = PF.ninf ∨ pfScale c PF.pinf = PF.nan := by
  simp only [pfScale]; split_ifs <;> simp

theorem pfScale_pinf_pos {c : ℚ} (h : 0 < c) : pfScale c PF.pinf = PF.pinf := by
  simp only [pfScale]; rw [if_pos h]

theorem pfScale_nonneg_pinf {c : ℚ} (h : 0 ≤ c) :
    pfScale c PF.pinf = PF.pinf ∨ pfScale c PF.pinf = PF.nan := by
  rcases lt_or_eq_of_le h with h' | h'
  · exact Or.inl (pfScale_pinf_pos h')
  · rw [← h']
    simp [pfScale]

theorem lerp_fin_fin (x y t : ℚ) :
    lerpPF (PF.fin x) (PF.fin y) t = PF.fin (x + t * (y - x)) := by
  unfold lerpPF
  split <;> simp only [pfSub, pfScale, pfAdd, qSub_eq, qMul_eq, qAdd_eq] <;>
    (congr 1; ring)

theorem lerp_b_nan (a : PF) (t : ℚ) : lerpPF a PF.nan t = PF.nan := by
  unfold lerpPF
  cases a <;> split <;> simp [pfSub, pfScale, pfAdd]

theorem lerp_b_pinf (a : PF) (t : ℚ) (h0 : 0 ≤ t) :
    lerpPF a PF.pinf t = PF.pinf ∨ lerpPF a PF.pinf t = PF.nan := by
  unfold lerpPF
  cases a
  case fin x =>
    split
    · simp only [pfSub]
      rcases pfScale_pinf_cases (qSub 1 t) with h2 | h2 | h2 <;> rw [h2] <;> simp [pfSub]
    · simp only [pfSub]
      rcases pfScale_nonneg_pinf h0 with h2 | h2 <;> rw [h2] <;> simp [pfAdd]
  case pinf => split <;> simp [pfSub, pfScale, pfAdd]
  case ninf =>
    split
    · simp only [pfSub]
      rcases pfScale_pinf_cases (qSub 1 t) with h2 | h2 | h2 <;> rw [h2] <;> simp [pfSub]
    · simp only [pfSub]
      rcases pfScale_nonneg_pinf h0 with h2 | h2 <;> rw [h2] <;> simp [pfAdd]
  case nan => split <;> simp [pfSub, pfScale, pfAdd]

theorem lerp_a_ninf (b : PF) (t : ℚ) (h0 : 0 ≤ t) (h1 : t < 1) :
    lerpPF PF.ninf b t = PF.ninf ∨ lerpPF PF.ninf b t = PF.nan := by
  have hc : 0 < qSub 1 t := by rw [qSub_eq]; linarith
  unfold lerpPF
  cases b
  case fin y =>
    split
    · simp only [pfSub]
      rw [pfScale_pinf_pos hc]
      simp [pfSub]
    · simp only [pfSub]
      rcases pfScale_nonneg_pinf h0 with h2 | h2 <;> rw [h2] <;> simp [pfAdd]
  case pinf =>
    split
    · simp only [pfSub]
      rw [pfScale_pinf_pos hc]
      simp [pfSub]
    · simp only [pfSub]
      rcases pfScale_nonneg_pinf h0 with h2 | h2 <;> rw [h2] <;> simp [pfAdd]
  case ninf => split <;> simp [pfSub, pfScale, pfAdd]
  case nan => split <;> simp [pfSub, pfScale, pfAdd]

theorem lerp_eq_pinf {a b : PF} {t : ℚ} (h0 : 0 ≤ t) (h1 : t < 1)
    (hab : pfSortLe a b = true) (h : lerpPF a b t = PF.pinf) : b = PF.pinf := by
  cases b
  case fin y =>
    cases a
    case fin x => rw [lerp_fin_fin] at h; exact PF.noConfusion h
    case pinf => simp [pfSortLe] at hab
    case ninf =>
      rcases lerp_a_ninf (PF.fin y) t h0 h1 with h2 | h2 <;> rw [h2] at h <;>
        exact PF.noConfusion h
    case nan => simp [pfSortLe] at hab
  case pinf => rfl
  case ninf =>
    have ha := pfSortLe_ninf_right hab
    subst ha
    rcases lerp_a_ninf PF.ninf t h0 h1 with h2 | h2 <;> rw [h2] at h <;>
      exact PF.noConfusion h
  case nan =>
    rw [lerp_b_nan] at h; exact PF.noConfusion h

theorem lerp_eq_ninf {a b : PF} {t : ℚ} (h0 : 0 ≤ t) (h1 : t < 1)
    (hab : pfSortLe a b = true) (h : lerpPF a b t = PF.ninf) : a = PF.ninf := by
  cases a
  case ninf => rfl
  case fin x =>
    cases b
    case fin y => rw [lerp_fin_fin] at h; exact PF.noConfusion h
    case pinf =>
      rcases lerp_b_pinf (PF.fin x) t h0 with h2 | h2 <;> rw [h2] at h <;>
        exact PF.noConfusion h
    case ninf => simp [pfSortLe] at hab
    case nan => rw [lerp_b_nan] at h; exact PF.noConfusion h
  case pinf =>
    rcases pfSortLe_pinf_left hab with hb | hb <;> subst hb
    · rcases lerp_b_pinf PF.pinf t h0 with h2 | h2 <;> rw [h2] at h <;>
        exact PF.noConfusion h
    · rw [lerp_b_nan] at h; exact PF.noConfusion h
  case nan =>
    have hb := pfSortLe_nan_left hab
    subst hb
    rw [lerp_b_nan] at h; exact PF.noConfusion h

theorem lerp_eq_fin {a b : PF} {t v : ℚ} (h0 : 0 ≤ t) (h1 : t < 1)
    (hab : pfSortLe a b = true) (h : lerpPF a b t = PF.fin v) :
    ∃ x y, a = PF.fin x ∧ b = PF.fin y ∧ x ≤ y ∧ v = x + t * (y - x) := by
  cases a
  case fin x =>
    cases b
    case fin y =>
      rw [lerp_fin_fin] at h
      injection h with h2
      exact ⟨x, y, rfl, rfl, pfSortLe_fin_fin hab, h2.symm⟩
    case pinf =>
      rcases lerp_b_pinf (PF.fin x) t h0 with h2 | h2 <;> rw [h2] at h <;>
        exact PF.noConfusion h
    case ninf => simp [pfSortLe] at hab
    case nan => rw [lerp_b_nan] at h; exact PF.noConfusion h
  case ninf =>
    rcases lerp_a_ninf b t h0 h1 with h2 | h2 <;> rw [h2] at h <;>
      exact PF.noConfusion h
  case pinf =>
    rcases pfSortLe_pinf_left hab with hb | hb <;> subst hb
    · rcases lerp_b_pinf PF.pinf t h0 with h2 | h2 <;> rw [h2] at h <;>
        exact PF.noConfusion h
    · rw [lerp_b_nan] at h; exact PF.noConfusion h
  case nan =>
    have hb := pfSortLe_nan_left hab
    subst hb
    rw [lerp_b_nan] at h; exact PF.noConfusion h

theorem quantilePF_eval (p : ℚ) (obs : List PF)
    (h1 : qidx p obs.length < (pfsorted obs).length)
    (h2 : qidx p obs.length + 1 < (pfsorted obs).length) :
    quantilePF p obs =
      lerpPF (pfsorted obs)[qidx p obs.length] (pfsorted obs)[qidx p obs.length + 1]
        (qpos p obs.length - ((qidx p obs.length : ℚ))) := by
  unfold quantilePF
  rw [qSub_eq, list_getD_eq _ _ _ h1, list_getD_eq _ _ _ h2]

theorem quantPF_pinf (obs : List PF) (hobs : ∀ x ∈ obs, x ≠ PF.nan)
    (hn : 2 ≤ obs.length)
    (h : quantilePF (Rat.divInt 1 4) obs = PF.pinf) :
    quantilePF (Rat.divInt 3 4) obs = PF.pinf ∨
      quantilePF (Rat.divInt 3 4) obs = PF.nan := by
  have hp1 : (0:ℚ) ≤ Rat.divInt 1 4 := by rw [divInt_one_four]; norm_num
  have hp1u : Rat.divInt 1 4 < 1 := by rw [divInt_one_four]; norm_num
  have hp3 : (0:ℚ) ≤ Rat.divInt 3 4 := by rw [divInt_three_four]; norm_num
  have hp3u : Rat.divInt 3 4 < 1 := by rw [divInt_three_four]; norm_num
  have hn1 : 1 ≤ obs.length := by omega
  have hL := pfsorted_length obs
  have hi1u : qidx (Rat.divInt 1 4) obs.length + 1 < obs.length := qidx_upper _ hp1 hp1u hn
  have hi3u : qidx (Rat.divInt 3 4) obs.length + 1 < obs.length := qidx_upper _ hp3 hp3u hn
  have ht1 := qidx_facts (Rat.divInt 1 4) obs.length hp1 hn1
  have ht3 := qidx_facts (Rat.divInt 3 4) obs.length hp3 hn1
  have hb1a : qidx (Rat.divInt 1 4) obs.length < (pfsorted obs).length := by rw [hL]; omega
  have hb1b : qidx (Rat.divInt 1 4) obs.length + 1 < (pfsorted obs).length := by rw [hL]; omega
  have hb3b : qidx (Rat.divInt 3 4) obs.length + 1 < (pfsorted obs).length := by rw [hL]; omega
  have hb3a : qidx (Rat.divInt 3 4) obs.length < (pfsorted obs).length := by rw [hL]; omega
  rw [quantilePF_eval _ _ hb1a hb1b] at h
  rw [quantilePF_eval _ _ hb3a hb3b]
  have hab1 : pfSortLe (pfsorted obs)[qidx (Rat.divInt 1 4) obs.length]
      (pfsorted obs)[qidx (Rat.divInt 1 4) obs.length + 1] = true :=
    pfsorted_rel obs hb1a hb1b (by omega)
  have ht1a : (0:ℚ) ≤ qpos (Rat.divInt 1 4) obs.length -
      ((qidx (Rat.divInt 1 4) obs.length : ℚ)) := by linarith [ht1.1]
  have ht1b : qpos (Rat.divInt 1 4) obs.length -
      ((qidx (Rat.divInt 1 4) obs.length : ℚ)) < 1 := by linarith [ht1.2]
  have hpinf : (pfsorted obs)[qidx (Rat.divInt 1 4) obs.length + 1] = PF.pinf :=
    lerp_eq_pinf ht1a ht1b hab1 h
  have h13 : qidx (Rat.divInt 1 4) obs.length ≤ qidx (Rat.divInt 3 4) obs.length :=
    qidx_mono _ hp1 (by rw [divInt_one_four, divInt_three_four]; norm_num) hn1
  have hab13 : pfSortLe (pfsorted obs)[qidx (Rat.divInt 1 4) obs.length + 1]
      (pfsorted obs)[qidx (Rat.divInt 3 4) obs.length + 1] = true :=
    pfsorted_rel obs hb1b hb3b (by omega)
  rw [hpinf] at hab13
  rcases pfSortLe_pinf_left hab13 with h3 | h3
  · rw [h3]
    exact lerp_b_pinf _ _ (by linarith [ht3.1])
  · exact absurd h3 (pfsorted_nonnan obs hobs hb3b)

theorem quantPF_ninf (obs : List PF) (hobs : ∀ x ∈ obs, x ≠ PF.nan)
    (hn : 2 ≤ obs.length)
    (h : quantilePF (Rat.divInt 3 4) obs = PF.ninf) :
    quantilePF (Rat.divInt 1 4) obs = PF.ninf ∨
      quantilePF (Rat.divInt 1 4) obs = PF.nan := by
  have hp1 : (0:ℚ) ≤ Rat.divInt 1 4 := by rw [divInt_one_four]; norm_num
  have hp1u : Rat.divInt 1 4 < 1 := by rw [divInt_one_four]; norm_num
  have hp3 : (0:ℚ) ≤ Rat.divInt 3 4 := by rw [divInt_three_four]; norm_num
  have hp3u : Rat.divInt 3 4 < 1 := by rw [divInt_three_four]; norm_num
  have hn1 : 1 ≤ obs.length := by omega
  have hL := pfsorted_length obs
  have hi1u : qidx (Rat.divInt 1 4) obs.length + 1 < obs.length := qidx_upper _ hp1 hp1u hn
  have hi3u : qidx (Rat.divInt 3 4) obs.length + 1 < obs.length := qidx_upper _ hp3 hp3u hn
  have ht1 := qidx_facts (Rat.divInt 1 4) obs.length hp1 hn1
  have ht3 := qidx_facts (Rat.divInt 3 4) obs.length hp3 hn1
  have hb1a : qidx (Rat.divInt 1 4) obs.length < (pfsorted obs).length := by rw [hL]; omega
  have hb1b : qidx (Rat.divInt 1 4) obs.length + 1 < (pfsorted obs).length := by rw [hL]; omega
  have hb3b : qidx (Rat.divInt 3 4) obs.length + 1 < (pfsorted obs).length := by rw [hL]; omega
  have hb3a : qidx (Rat.divInt 3 4) obs.length < (pfsorted obs).length := by rw [hL]; omega
  rw [quantilePF_eval _ _ hb3a hb3b] at h
  rw [quantilePF_eval _ _ hb1a hb1b]
  have hab3 : pfSortLe (pfsorted obs)[qidx (Rat.divInt 3 4) obs.length]
      (pfsorted obs)[qidx (Rat.divInt 3 4) obs.length + 1] = true :=
    pfsorted_rel obs hb3a hb3b (by omega)
  have ht3a : (0:ℚ) ≤ qpos (Rat.divInt 3 4) obs.length -
      ((qidx (Rat.divInt 3 4) obs.length : ℚ)) := by linarith [ht3.1]
  have ht3b : qpos (Rat.divInt 3 4) obs.length -
      ((qidx (Rat.divInt 3 4) obs.length : ℚ)) < 1 := by linarith [ht3.2]
  have hninf : (pfsorted obs)[qidx (Rat.divInt 3 4) obs.length] = PF.ninf :=
    lerp_eq_ninf ht3a ht3b hab3 h
  have h13 : qidx (Rat.divInt 1 4) obs.length ≤ qidx (Rat.divInt 3 4) obs.length :=
    qidx_mono _ hp1 (by rw [divInt_one_four, divInt_three_four]; norm_num) hn1
  have hab31 : pfSortLe (pfsorted obs)[qidx (Rat.divInt 1 4) obs.length]
      (pfsorted obs)[qidx (Rat.divInt 3 4) obs.length] = true :=
    pfsorted_rel obs hb1a hb3a h13
  rw [hninf] at hab31
  have ha := pfSortLe_ninf_right hab31
  rw [ha]
  exact lerp_a_ninf _ _ (by linarith [ht1.1]) (by linarith [ht1.2])

theorem quantPF_fin_mono (obs : List PF) (hn : 2 ≤ obs.length) {a b : ℚ}
    (h1 : quantilePF (Rat.divInt 1 4) obs = PF.fin a)
    (h3 : quantilePF (Rat.divInt 3 4) obs = PF.fin b) : a ≤ b := by
  have hp1 : (0:ℚ) ≤ Rat.divInt 1 4 := by rw [divInt_one_four]; norm_num
  have hp1u : Rat.divInt 1 4 < 1 := by rw [divInt_one_four]; norm_num
  have hp3 : (0:ℚ) ≤ Rat.divInt 3 4 := by rw [divInt_three_four]; norm_num
  have hp3u : Rat.divInt 3 4 < 1 := by rw [divInt_three_four]; norm_num
  have hn1 : 1 ≤ obs.length := by omega
  have hL := pfsorted_length obs
  have hi1u : qidx (Rat.divInt 1 4) obs.length + 1 < obs.length := qidx_upper _ hp1 hp1u hn
  have hi3u : qidx (Rat.divInt 3 4) obs.length + 1 < obs.length := qidx_upper _ hp3 hp3u hn
  have ht1 := qidx_facts (Rat.divInt 1 4) obs.length hp1 hn1
  have ht3 := qidx_facts (Rat.divInt 3 4) obs.length hp3 hn1
  have hb1a : qidx (Rat.divInt 1 4) obs.length < (pfsorted obs).length := by rw [hL]; omega
  have hb1b : qidx (Rat.divInt 1 4) obs.length + 1 < (pfsorted obs).length := by rw [hL]; omega
  have hb3b : qidx (Rat.divInt 3 4) obs.length + 1 < (pfsorted obs).length := by rw [hL]; omega
  have hb3a : qidx (Rat.divInt 3 4) obs.length < (pfsorted obs).length := by rw [hL]; omega
  rw [quantilePF_eval _ _ hb1a hb1b] at h1
  rw [quantilePF_eval _ _ hb3a hb3b] at h3
  have hab1 : pfSortLe (pfsorted obs)[qidx (Rat.divInt 1 4) obs.length]
      (pfsorted obs)[qidx (Rat.divInt 1 4) obs.length + 1] = true :=
    pfsorted_rel obs hb1a hb1b (by omega)
  have hab3 : pfSortLe (pfsorted obs)[qidx (Rat.divInt 3 4) obs.length]
      (pfsorted obs)[qidx (Rat.divInt 3 4) obs.length + 1] = true :=
    pfsorted_rel obs hb3a hb3b (by omega)
  have ht1a : (0:ℚ) ≤ qpos (Rat.divInt 1 4) obs.length -
      ((qidx (Rat.divInt 1 4) obs.length : ℚ)) := by linarith [ht1.1]
  have ht1b : qpos (Rat.divInt 1 4) obs.length -
      ((qidx (Rat.divInt 1 4) obs.length : ℚ)) < 1 := by linarith [ht1.2]
  have ht3a : (0:ℚ) ≤ qpos (Rat.divInt 3 4) obs.length -
      ((qidx (Rat.divInt 3 4) obs.length : ℚ)) := by linarith [ht3.1]
  have ht3b : qpos (Rat.divInt 3 4) obs.length -
      ((qidx (Rat.divInt 3 4) obs.length : ℚ)) < 1 := by linarith [ht3.2]
  obtain ⟨x1, y1, hx1, hy1, hxy1, hva⟩ := lerp_eq_fin ht1a ht1b hab1 h1
  obtain ⟨x3, y3, hx3, hy3, hxy3, hvb⟩ := lerp_eq_fin ht3a ht3b hab3 h3
  have h13 : qidx (Rat.divInt 1 4) obs.length ≤ qidx (Rat.divInt 3 4) obs.length :=
    qidx_mono _ hp1 (by rw [divInt_one_four, divInt_three_four]; norm_num) hn1
  rcases Nat.lt_or_eq_of_le h13 with hlt | heq
  · have hmid : pfSortLe (pfsorted obs)[qidx (Rat.divInt 1 4) obs.length + 1]
        (pfsorted obs)[qidx (Rat.divInt 3 4) obs.length] = true :=
      pfsorted_rel obs hb1b hb3a (by omega)
    rw [hy1, hx3] at hmid
    have hyx := pfSortLe_fin_fin hmid
    nlinarith [mul_nonneg (by linarith : (0:ℚ) ≤ 1 - (qpos (Rat.divInt 1 4) obs.length -
        ((qidx (Rat.divInt 1 4) obs.length : ℚ)))) (by linarith : (0:ℚ) ≤ y1 - x1),
      mul_nonneg ht3a (by linarith : (0:ℚ) ≤ y3 - x3)]
  · simp only [heq] at hx1 hy1
    have e1 : x1 = x3 := by
      have hc := hx1.symm.trans hx3
      injection hc
    have e2 : y1 = y3 := by
      have hc := hy1.symm.trans hy3
      injection hc
    have hq13 : qpos (Rat.divInt 1 4) obs.length ≤ qpos (Rat.divInt 3 4) obs.length := by
      rw [qpos_eq, qpos_eq, divInt_one_four, divInt_three_four]
      have hn1q : (1:ℚ) ≤ (obs.length : ℚ) := by exact_mod_cast hn1
      nlinarith
    have hc : ((qidx (Rat.divInt 1 4) obs.length : ℚ)) =
        ((qidx (Rat.divInt 3 4) obs.length : ℚ)) := by exact_mod_cast congrArg Nat.cast heq
    have ht13 : qpos (Rat.divInt 1 4) obs.length -
        ((qidx (Rat.divInt 1 4) obs.length : ℚ)) ≤
        qpos (Rat.divInt 3 4) obs.length -
        ((qidx (Rat.divInt 3 4) obs.length : ℚ)) := by linarith
    have hkey : b - a = ((qpos (Rat.divInt 3 4) obs.length -
        ((qidx (Rat.divInt 3 4) obs.length : ℚ))) - (qpos (Rat.divInt 1 4) obs.length -
        ((qidx (Rat.divInt 1 4) obs.length : ℚ)))) * (y1 - x1) := by
      rw [hva, hvb, ← e1, ← e2]; ring
    have hprod : (0:ℚ) ≤ ((qpos (Rat.divInt 3 4) obs.length -
        ((qidx (Rat.divInt 3 4) obs.length : ℚ))) - (qpos (Rat.divInt 1 4) obs.length -
        ((qidx (Rat.divInt 1 4) obs.length : ℚ)))) * (y1 - x1) :=
      mul_nonneg (by linarith) (by linarith)
    linarith

theorem tukey_disjoint (obs : List PF) (hobs : ∀ x ∈ obs, x ≠ PF.nan)
    (hn : 2 ≤ obs.length) (x : PF) :
    ¬(pfLtB x (tukeyLower obs) = true ∧ pfLtB (tukeyUpper obs) x = true) := by
  rintro ⟨hxl, hxu⟩
  rcases hq1 : quantilePF (Rat.divInt 1 4) obs with a | _ | _ | _
  · rcases hq3 : quantilePF (Rat.divInt 3 4) obs with b | _ | _ | _
    · have hab := quantPF_fin_mono obs hn hq1 hq3
      have hl : tukeyLower obs = PF.fin (qSub a (qMul (qSub b a) (Rat.divInt 3 2))) := by
        unfold tukeyLower; rw [hq1, hq3]; rfl
      have hu : tukeyUpper obs = PF.fin (qAdd b (qMul (qSub b a) (Rat.divInt 3 2))) := by
        unfold tukeyUpper; rw [hq1, hq3]; rfl
      rw [hl] at hxl
      rw [hu] at hxu
      cases x
      · rename_i v
        simp only [pfLtB, decide_eq_true_eq] at hxl hxu
        simp only [qSub_eq, qMul_eq, qAdd_eq, divInt_three_two] at hxl hxu
        linarith
      · simp [pfLtB] at hxl
      · simp [pfLtB] at hxu
      · simp [pfLtB] at hxl
    · have hl : tukeyLower obs = PF.ninf := by
        unfold tukeyLower; rw [hq1, hq3]; rfl
      rw [hl, pfLtB_ninf_right] at hxl
      exact Bool.noConfusion hxl
    · rcases quantPF_ninf obs hobs hn hq3 with h | h <;> rw [hq1] at h <;>
        exact PF.noConfusion h
    · have hl : tukeyLower obs = PF.nan := by
        unfold tukeyLower; rw [hq1, hq3]; rfl
      rw [hl, pfLtB_nan_right] at hxl
      exact Bool.noConfusion hxl
  · rcases quantPF_pinf obs hobs hn hq1 with h3 | h3
    · have hl : tukeyLower obs = PF.nan := by
        unfold tukeyLower; rw [hq1, h3]; rfl
      rw [hl, pfLtB_nan_right] at hxl
      exact Bool.noConfusion hxl
    · have hl : tukeyLower obs = PF.nan := by
        unfold tukeyLower; rw [hq1, h3]; rfl
      rw [hl, pfLtB_nan_right] at hxl
      exact Bool.noConfusion hxl
  · rcases hq3 : quantilePF (Rat.divInt 3 4) obs with b | _ | _ | _
    · have hl : tukeyLower obs = PF.ninf := by
        unfold tukeyLower; rw [hq1, hq3]; rfl
      rw [hl, pfLtB_ninf_right] at hxl
      exact Bool.noConfusion hxl
    · have hl : tukeyLower obs = PF.ninf := by
        unfold tukeyLower; rw [hq1, hq3]; rfl
      rw [hl, pfLtB_ninf_right] at hxl
      exact Bool.noConfusion hxl
    · have hl : tukeyLower obs = PF.nan := by
        unfold tukeyLower; rw [hq1, hq3]; rfl
      rw [hl, pfLtB_nan_right] at hxl
      exact Bool.noConfusion hxl
    · have hl : tukeyLower obs = PF.nan := by
        unfold tukeyLower; rw [hq1, hq3]; rfl
      rw [hl, pfLtB_nan_right] at hxl
      exact Bool.noConfusion hxl
  · have hl : tukeyLower obs = PF.nan := by
      unfold tukeyLower; rw [hq1]
      rcases hq3 : quantilePF (Rat.divInt 3 4) obs with b | _ | _ | _ <;> rfl
    rw [hl, pfLtB_nan_right] at hxl
    exact Bool.noConfusion hxl

theorem outlierEntry_isSome (obs : List PF) :
    (outlierEntry obs).isSome = true ↔ 10 ≤ obs.length := by
  unfold outlierEntry
  split <;> simp_all

theorem outlierEntry_eq_some (obs : List PF) (e : OutEntry)
    (h : outlierEntry obs = some e) :
    e.lower_bound = tukeyLower obs ∧ e.upper_bound = tukeyUpper obs ∧
    e.num_below = obs.countP (fun x => pfLtB x (tukeyLower obs)) ∧
    e.num_above = obs.countP (fun x => pfLtB (tukeyUpper obs) x) ∧
    10 ≤ obs.length := by
  unfold outlierEntry at h
  split at h
  · rename_i hlen
    have he := Option.some.inj h
    refine ⟨?_, ?_, ?_, ?_, hlen⟩ <;> rw [← he]
  · exact Option.noConfusion h

theorem outlierEntry_count_bound (obs : List PF) (hobs : ∀ x ∈ obs, x ≠ PF.nan)
    {e : OutEntry} (h : outlierEntry obs = some e) :
    e.num_below + e.num_above ≤ obs.length := by
  obtain ⟨hl, hu, hb, ha, hlen⟩ := outlierEntry_eq_some obs e h
  rw [hb, ha]
  exact countP_disjoint_le _ _ _ (tukey_disjoint obs hobs (by omega))

/-- C7: The profile's outliers_iqr section has an entry for a numeric column
(price_numeric or price_per_sqm) exactly when the column has at least 10
non-null observations (pandas dropna keeps infinite values, so they count);
the entry's bounds are Q1 - 1.5*IQR and Q3 + 1.5*IQR computed from
linear-interpolation quantiles in IEEE float arithmetic, its counts are the
observations strictly below the lower bound and strictly above the upper
bound (IEEE comparisons), and the two counts sum to at most the observation
count. -/
theorem claim7_outlier_section (df : List Row) (c : String)
    (hc : c = "price_numeric" ∨ c = "price_per_sqm") :
    ((∃ e, (c, e) ∈ basic_analysis_outliers df) ↔ 10 ≤ (colObs df c).length) ∧
    (∀ e, (c, e) ∈ basic_analysis_outliers df →
      e.lower_bound = pfSub (quantilePF (Rat.divInt 1 4) (colObs df c))
          (pfScale (Rat.divInt 3 2)
            (pfSub (quantilePF (Rat.divInt 3 4) (colObs df c))
              (quantilePF (Rat.divInt 1 4) (colObs df c)))) ∧
      e.upper_bound = pfAdd (quantilePF (Rat.divInt 3 4) (colObs df c))
          (pfScale (Rat.divInt 3 2)
            (pfSub (quantilePF (Rat.divInt 3 4) (colObs df c))
              (quantilePF (Rat.divInt 1 4) (colObs df c)))) ∧
      e.num_below = (colObs df c).countP (fun x => pfLtB x e.lower_bound) ∧
      e.num_above = (colObs df c).countP (fun x => pfLtB e.upper_bound x) ∧
      e.num_below + e.num_above ≤ (colObs df c).length) := by
  have hmem : ∀ e : OutEntry, (c, e) ∈ basic_analysis_outliers df →
      outlierEntry (colObs df c) = some e := by
    intro e he
    unfold basic_analysis_outliers at he
    rw [List.mem_filterMap] at he
    obtain ⟨c2, hc2, hf⟩ := he
    rw [Option.map_eq_some'] at hf
    obtain ⟨e2, he2, heq⟩ := hf
    injection heq with hceq heeq
    subst hceq
    subst heeq
    exact he2
  constructor
  · constructor
    · rintro ⟨e, he⟩
      exact (outlierEntry_eq_some _ _ (hmem e he)).2.2.2.2
    · intro hlen
      refine ⟨⟨tukeyLower (colObs df c), tukeyUpper (colObs df c),
        (colObs df c).countP (fun x => pfLtB x (tukeyLower (colObs df c))),
        (colObs df c).countP (fun x => pfLtB (tukeyUpper (colObs df c)) x)⟩, ?_⟩
      unfold basic_analysis_outliers
      rw [List.mem_filterMap]
      refine ⟨c, ?_, ?_⟩
      · rcases hc with h | h <;> rw [h] <;> simp
      · have hsome : outlierEntry (colObs df c) = some ⟨tukeyLower (colObs df c),
            tukeyUpper (colObs df c),
            (colObs df c).countP (fun x => pfLtB x (tukeyLower (colObs df c))),
            (colObs df c).countP (fun x => pfLtB (tukeyUpper (colObs df c)) x)⟩ := by
          unfold outlierEntry
          rw [if_pos hlen]
        rw [hsome]
        rfl
  · intro e he
    obtain ⟨hl, hu, hb, ha, hlen⟩ := outlierEntry_eq_some _ _ (hmem e he)
    refine ⟨?_, ?_, ?_, ?_, ?_⟩
    · rw [hl]; rfl
    · rw [hu]; rfl
    · rw [hb, hl]
    · rw [ha, hu]
    · exact outlierEntry_count_bound _ (colObs_nonnan df c) (hmem e he)

theorem claim7_witness :
    ∃ e, ("price_numeric", e) ∈ basic_analysis_outliers
      ([{ price_numeric := PF.fin 1 }, { price_numeric := PF.fin 2 },
        { price_numeric := PF.fin 3 }, { price_numeric := PF.fin 4 },
        { price_numeric := PF.fin 5 }, { price_numeric := PF.fin 6 },
        { price_numeric := PF.fin 7 }, { price_numeric := PF.fin 8 },
        { price_numeric := PF.fin 9 }, { price_numeric := PF.fin 10 }] : List Row) :=
  (claim7_outlier_section
    ([{ price_numeric := PF.fin 1 }, { price_numeric := PF.fin 2 },
      { price_numeric := PF.fin 3 }, { price_numeric := PF.fin 4 },
      { price_numeric := PF.fin 5 }, { price_numeric := PF.fin 6 },
      { price_numeric := PF.fin 7 }, { price_numeric := PF.fin 8 },
      { price_numeric := PF.fin 9 }, { price_numeric := PF.fin 10 }] : List Row)
    "price_numeric" (Or.inl rfl)).1.mpr (by decide)
